import Mathlib

/-!
Verification of the structured-output recovery pipeline in
`backend/app/services/assistant_service.py` (smartCook).

The Python source is shallowly embedded: Python values flowing through the
pipeline become the inductive type `PyVal`; Python dicts become ordered
association lists; text processing is done on `List Char`; the stdlib
`json.loads` is modelled by an executable recursive-descent parser
(`jsonLoads`); the external Groq completion client becomes an oracle
`Client := Nat → Except String String` indexed by the global call count
(an `.error` models a raised transport exception).
-/

set_option maxHeartbeats 1000000

namespace SmartCook

/-- Python runtime values relevant to the pipeline (the shapes produced by
`json.loads` plus the inventory/recipe payloads).  A Python `float` is
carried by its source literal (`floatLit`): no claim depends on
floating-point arithmetic, only on where floats appear.  A Python `dict`
is an insertion-ordered association list. -/
inductive PyVal where
  | none
  | bool (b : Bool)
  | int (n : Int)
  | floatLit (lit : String)
  | str (s : String)
  | list (xs : List PyVal)
  | dict (kvs : List (String × PyVal))

/-- Structural induction for `PyVal` through the nested lists. -/
theorem PyVal.inductionOn {P : PyVal → Prop}
    (hnone : P .none) (hbool : ∀ b, P (.bool b)) (hint : ∀ n, P (.int n))
    (hfloat : ∀ s, P (.floatLit s)) (hstr : ∀ s, P (.str s))
    (hlist : ∀ xs, (∀ x ∈ xs, P x) → P (.list xs))
    (hdict : ∀ kvs, (∀ p ∈ kvs, P p.2) → P (.dict kvs)) :
    ∀ v, P v
  | .none => hnone
  | .bool b => hbool b
  | .int n => hint n
  | .floatLit s => hfloat s
  | .str s => hstr s
  | .list xs => hlist xs (fun x hx =>
      PyVal.inductionOn hnone hbool hint hfloat hstr hlist hdict x)
  | .dict kvs => hdict kvs (fun p hp =>
      PyVal.inductionOn hnone hbool hint hfloat hstr hlist hdict p.2)
termination_by v => sizeOf v
decreasing_by
  · have h := List.sizeOf_lt_of_mem hx
    simp only [PyVal.list.sizeOf_spec]
    omega
  · have h1 := List.sizeOf_lt_of_mem hp
    obtain ⟨k, v⟩ := p
    simp only [PyVal.dict.sizeOf_spec, Prod.mk.sizeOf_spec] at *
    omega

/-- `d.get(k)` on a Python dict (first matching key). -/
def dictGet (kvs : List (String × PyVal)) (k : String) : Option PyVal :=
  (kvs.find? (fun p => p.1 = k)).map (·.2)

/-- `d[k] = v` on a Python dict: update the first occurrence in place,
else append at the end (Python dicts keep insertion order). -/
def dictSet (kvs : List (String × PyVal)) (k : String) (v : PyVal) :
    List (String × PyVal) :=
  match kvs with
  | [] => [(k, v)]
  | (k', v') :: rest =>
      if k' = k then (k', v) :: rest else (k', v') :: dictSet rest k v

/-- Python truthiness (`bool(x)`) for the value shapes in play. A float is
falsy exactly when its value is zero; for the literal-carried floats this
is a lexical zero test (digits, sign, dot and exponent only). -/
def pyTruthy : PyVal → Bool
  | .none => false
  | .bool b => b
  | .int n => n ≠ 0
  | .floatLit s => ¬(s.data.all (fun c => ¬c.isDigit ∨ c = '0'))
  | .str s => s ≠ ""
  | .list xs => ¬xs.isEmpty
  | .dict kvs => ¬kvs.isEmpty

mutual

/-- Python `repr(x)` (as used when containers are stringified).  Strings are
repr'd with single quotes; this simplified model does not reproduce
Python's quote-choice or escaping subtleties, which no claim exercises. -/
def pyRepr : PyVal → String
  | .none => "None"
  | .bool b => if b then "True" else "False"
  | .int n => toString n
  | .floatLit s => s
  | .str s => "\x27" ++ s ++ "\x27"
  | .list xs => "[" ++ ", ".intercalate (pyReprList xs) ++ "]"
  | .dict kvs => "\x7b" ++ ", ".intercalate (pyReprDict kvs) ++ "\x7d"

def pyReprList : List PyVal → List String
  | [] => []
  | x :: xs => pyRepr x :: pyReprList xs

def pyReprDict : List (String × PyVal) → List String
  | [] => []
  | (k, v) :: kvs => ("\x27" ++ k ++ "\x27: " ++ pyRepr v) :: pyReprDict kvs

end

/-- Python `str(x)`. -/
def pyStr : PyVal → String
  | .str s => s
  | v => pyRepr v

/-- Python `s.strip()` / `s.lower()` companions on char lists.  Python's
whitespace set is modelled by `Char.isWhitespace` (space, tab, CR, LF). -/
def stripChars (l : List Char) : List Char :=
  ((l.dropWhile Char.isWhitespace).reverse.dropWhile Char.isWhitespace).reverse

/-- Python `s.strip()`. -/
def pyStrip (s : String) : String := String.mk (stripChars s.data)

/-- Python `s.lower()`, character by character. -/
def pyLower (s : String) : String := String.mk (s.data.map Char.toLower)

/-- Helper for Python `s.split()`: accumulate the current word (reversed). -/
def pySplitAux : List Char → List Char → List String
  | [], acc => if acc.isEmpty then [] else [String.mk acc.reverse]
  | c :: rest, acc =>
      if c.isWhitespace then
        if acc.isEmpty then pySplitAux rest []
        else String.mk acc.reverse :: pySplitAux rest []
      else pySplitAux rest (c :: acc)

/-- Python `s.split()` : split on whitespace runs, dropping empty pieces. -/
def pySplit (s : String) : List String := pySplitAux s.data []

/-! ### Text utilities used by `_extract_json`

All of these operate on `List Char`.  The backtick and the braces are
written with `\x60` / `\x7b` / `\x7d` escapes throughout. -/

/-- The 7-character marker removed by `text.replace("```json", "")`. -/
def fenceJsonChars : List Char := ['\x60', '\x60', '\x60', 'j', 's', 'o', 'n']

/-- The 3-character marker removed by `text.replace("```", "")`. -/
def fenceChars : List Char := ['\x60', '\x60', '\x60']

/-- `text.replace("```json", "")`: delete every (left-to-right,
non-overlapping) occurrence. -/
def removeFenceJson : List Char → List Char
  | [] => []
  | c :: rest =>
      if fenceJsonChars.isPrefixOf (c :: rest) then
        removeFenceJson ((c :: rest).drop 7)
      else c :: removeFenceJson rest
termination_by l => l.length
decreasing_by
  · simp only [List.length_drop, List.length_cons]; omega
  · simp

/-- `text.replace("```", "")`. -/
def removeFence : List Char → List Char
  | [] => []
  | c :: rest =>
      if fenceChars.isPrefixOf (c :: rest) then
        removeFence ((c :: rest).drop 3)
      else c :: removeFence rest
termination_by l => l.length
decreasing_by
  · simp only [List.length_drop, List.length_cons]; omega
  · simp

/-- `re.sub(r"//.*", "", text)`: left-to-right scan; after `//` every char
up to (excluding) the next newline is dropped.  The Boolean flag records
being inside a line comment. -/
def removeLineComments : Bool → List Char → List Char
  | _, [] => []
  | true, c :: rest =>
      if c = '\n' then c :: removeLineComments false rest
      else removeLineComments true rest
  | false, c :: rest =>
      if c = '/' ∧ rest.head? = some '/' then removeLineComments true rest.tail
      else c :: removeLineComments false rest
termination_by _ l => l.length
decreasing_by
  all_goals simp only [List.length_cons]
  all_goals try omega
  all_goals (cases rest <;> simp <;> omega)

/-- Locate the first `*/` and return the suffix after it. -/
def splitAtBlockClose : List Char → Option (List Char)
  | [] => Option.none
  | c :: rest =>
      if c = '*' ∧ rest.head? = some '/' then some rest.tail
      else splitAtBlockClose rest

theorem splitAtBlockClose_length {l r : List Char}
    (h : splitAtBlockClose l = some r) : r.length < l.length := by
  induction l with
  | nil => simp [splitAtBlockClose] at h
  | cons c rest ih =>
      rw [splitAtBlockClose] at h
      split at h
      · cases h
        have : rest.tail.length ≤ rest.length := by
          cases rest <;> simp
        simp only [List.length_cons]
        omega
      · have := ih h
        simp only [List.length_cons]
        omega

/-- `re.sub(r"/\*.*?\*/", "", text, flags=re.S)`: each `/*` with a later
`*/` is deleted (lazily, to the first close); a `/*` with no close ahead
matches nothing — and then nothing later can match either, so the rest is
kept verbatim. -/
def removeBlockComments : List Char → List Char
  | [] => []
  | c :: rest =>
      if c = '/' ∧ rest.head? = some '*' then
        match h : splitAtBlockClose rest.tail with
        | some r => removeBlockComments r
        | none => c :: rest
      else c :: removeBlockComments rest
termination_by l => l.length
decreasing_by
  · have h1 := splitAtBlockClose_length h
    have h2 : rest.tail.length ≤ rest.length := by cases rest <;> simp
    simp only [List.length_cons]
    omega
  · simp

/-- `_remove_json_comments`: line comments, then block comments, then
`.strip()`. -/
def _remove_json_comments (l : List Char) : List Char :=
  stripChars (removeBlockComments (removeLineComments false l))

/-- The brace-depth scan of `_balanced_json_snippet`, starting after the
first `{` was located (depth starts at 0 and the first char is that `{`).
Returns the span up to and including the brace closing depth 0. -/
def scanBalanced : Nat → List Char → Option (List Char)
  | _, [] => Option.none
  | depth, c :: rest =>
      if c = '\x7b' then (scanBalanced (depth + 1) rest).map (c :: ·)
      else if c = '\x7d' then
        if depth = 1 then some [c]
        else (scanBalanced (depth - 1) rest).map (c :: ·)
      else (scanBalanced depth rest).map (c :: ·)

/-- `_balanced_json_snippet`: first balanced `{...}` span, or none. -/
def _balanced_json_snippet (l : List Char) : Option (List Char) :=
  match l.dropWhile (fun c => c ≠ '\x7b') with
  | [] => Option.none
  | l' => scanBalanced 0 l'

/-- Content/rest split at the next closing ``` fence. -/
def splitAtTicks : List Char → Option (List Char × List Char)
  | [] => Option.none
  | c :: rest =>
      if fenceChars.isPrefixOf (c :: rest) then some ([], (c :: rest).drop 3)
      else (splitAtTicks rest).map (fun p => (c :: p.1, p.2))

theorem splitAtTicks_length {l : List Char} {a b : List Char}
    (h : splitAtTicks l = some (a, b)) : b.length < l.length := by
  induction l generalizing a b with
  | nil => simp [splitAtTicks] at h
  | cons c rest ih =>
      rw [splitAtTicks] at h
      split at h
      · cases h
        simp only [List.drop, List.length_cons, List.length_drop]
        omega
      · rcases hm : splitAtTicks rest with _ | ⟨a', b'⟩ <;> rw [hm] at h
        · cases h
        · cases h
          have := ih hm
          simp only [List.length_cons]
          omega

/-- `re.finditer(r"```json([\s\S]*?)```", text)`: the lazily-matched
contents, in order of appearance, scanning left to right and resuming
after each closing fence. -/
def fencedJsonBlocks : List Char → List (List Char)
  | [] => []
  | c :: rest =>
      if fenceJsonChars.isPrefixOf (c :: rest) then
        match h : splitAtTicks ((c :: rest).drop 7) with
        | some (content, after) => content :: fencedJsonBlocks after
        | none => []
      else fencedJsonBlocks rest
termination_by l => l.length
decreasing_by
  · have h1 := splitAtTicks_length h
    simp only [List.length_drop, List.length_cons] at h1 ⊢
    omega
  · simp

/-! ### A model of `json.loads`

An executable recursive-descent parser.  Simplifications (none of which a
claim exercises): floats are kept as their source literal, `\uXXXX`
escapes are not decoded, and leading zeros in numbers are tolerated. -/

/-- JSON whitespace (the set skipped by `json.loads`). -/
def isJsonWs (c : Char) : Bool := c = ' ' ∨ c = '\t' ∨ c = '\n' ∨ c = '\r'

/-- Skip JSON whitespace. -/
def skipWs (l : List Char) : List Char := l.dropWhile isJsonWs

/-- The keyword literals, as explicit character lists. -/
def trueChars : List Char := ['t', 'r', 'u', 'e']

/-- See `trueChars`. -/
def falseChars : List Char := ['f', 'a', 'l', 's', 'e']

/-- See `trueChars`. -/
def nullChars : List Char := ['n', 'u', 'l', 'l']

/-- JSON string escape characters (`\uXXXX` not modelled). -/
def escChar : Char → Option Char
  | '"' => some '"'
  | '\\' => some '\\'
  | '/' => some '/'
  | 'b' => some (Char.ofNat 8)
  | 'f' => some (Char.ofNat 12)
  | 'n' => some '\n'
  | 'r' => some '\r'
  | 't' => some '\t'
  | _ => Option.none

/-- Parse a JSON string body (the opening quote already consumed):
returns the decoded content and the input after the closing quote.
Raw control characters are rejected (strict mode). -/
def parseStringBody : List Char → Option (List Char × List Char)
  | [] => Option.none
  | c :: rest =>
      if c = '"' then some ([], rest)
      else if c = '\\' then
        match rest with
        | [] => Option.none
        | e :: rest' =>
            match escChar e with
            | some ec => (parseStringBody rest').map (fun p => (ec :: p.1, p.2))
            | none => Option.none
      else if c.toNat < 32 then Option.none
      else (parseStringBody rest).map (fun p => (c :: p.1, p.2))

/-- Accumulated value of a list of decimal digit characters. -/
def digitsVal (l : List Char) : Nat :=
  l.foldl (fun a c => 10 * a + (c.toNat - 48)) 0

/-- Parse a JSON number at the head of the input.  An integer (no
fraction, no exponent) becomes `.int`; otherwise the consumed literal is
kept as `.floatLit`. -/
def parseNumberFrom (l : List Char) : Option (PyVal × List Char) :=
  let neg := l.head? = some '-'
  let l1 := if neg then l.tail else l
  let ds := l1.takeWhile Char.isDigit
  let r1 := l1.dropWhile Char.isDigit
  if ds.isEmpty then Option.none
  else
    let hasFrac := r1.head? = some '.'
    let fs := r1.tail.takeWhile Char.isDigit
    if hasFrac ∧ fs.isEmpty then Option.none
    else
      let frac : List Char := if hasFrac then '.' :: fs else []
      let r2 := if hasFrac then r1.tail.dropWhile Char.isDigit else r1
      let hasExp := r2.head? = some 'e' ∨ r2.head? = some 'E'
      if hasExp then
        let hasSgn := r2.tail.head? = some '+' ∨ r2.tail.head? = some '-'
        let sgnTl := if hasSgn then r2.tail.tail else r2.tail
        let es := sgnTl.takeWhile Char.isDigit
        if es.isEmpty then Option.none
        else
          some (.floatLit (String.mk ((if neg then ['-'] else []) ++ ds
            ++ frac ++ r2.take 1 ++ (if hasSgn then r2.tail.take 1 else [])
            ++ es)), sgnTl.dropWhile Char.isDigit)
      else
        if frac.isEmpty then
          some (.int (if neg then -(digitsVal ds : Int)
            else (digitsVal ds : Int)), r1)
        else
          some (.floatLit (String.mk ((if neg then ['-'] else [])
            ++ ds ++ frac)), r2)

mutual

/-- Parse one JSON value at the head of the input (no leading whitespace).
Fuel decreases on every (mutual) recursive call. -/
def parseVal : Nat → List Char → Option (PyVal × List Char)
  | 0, _ => Option.none
  | fuel + 1, l =>
      match l with
      | [] => Option.none
      | c :: rest =>
          if c = '\x7b' then
            match skipWs rest with
            | [] => Option.none
            | c' :: r' =>
                if c' = '\x7d' then some (.dict [], r')
                else (parseMembers fuel [] (c' :: r')).map
                  (fun p => (.dict p.1, p.2))
          else if c = '[' then
            match skipWs rest with
            | [] => Option.none
            | c' :: r' =>
                if c' = ']' then some (.list [], r')
                else (parseElems fuel [] (c' :: r')).map
                  (fun p => (.list p.1, p.2))
          else if c = '"' then
            (parseStringBody rest).map (fun p => (.str (String.mk p.1), p.2))
          else if trueChars.isPrefixOf l then some (.bool true, l.drop 4)
          else if falseChars.isPrefixOf l then some (.bool false, l.drop 5)
          else if nullChars.isPrefixOf l then some (.none, l.drop 4)
          else parseNumberFrom l

/-- Parse the members of a JSON object, starting at a key's opening quote;
the accumulator is built with Python-dict insertion semantics. -/
def parseMembers : Nat → List (String × PyVal) → List Char →
    Option (List (String × PyVal) × List Char)
  | 0, _, _ => Option.none
  | fuel + 1, acc, l =>
      match l with
      | [] => Option.none
      | c :: rest =>
          if c = '"' then
            match parseStringBody rest with
            | none => Option.none
            | some (key, r1) =>
                match skipWs r1 with
                | [] => Option.none
                | c2 :: r2 =>
                    if c2 = ':' then
                      match parseVal fuel (skipWs r2) with
                      | none => Option.none
                      | some (v, r3) =>
                          let acc' := dictSet acc (String.mk key) v
                          match skipWs r3 with
                          | [] => Option.none
                          | c4 :: r4 =>
                              if c4 = ',' then parseMembers fuel acc' (skipWs r4)
                              else if c4 = '\x7d' then some (acc', r4)
                              else Option.none
                    else Option.none
          else Option.none

/-- Parse the elements of a JSON array, starting at an element value. -/
def parseElems : Nat → List PyVal → List Char → Option (List PyVal × List Char)
  | 0, _, _ => Option.none
  | fuel + 1, acc, l =>
      match parseVal fuel l with
      | none => Option.none
      | some (v, r) =>
          match skipWs r with
          | [] => Option.none
          | c2 :: r2 =>
              if c2 = ',' then parseElems fuel (acc ++ [v]) (skipWs r2)
              else if c2 = ']' then some (acc ++ [v], r2)
              else Option.none

end

/-- `json.loads`: a single document with only whitespace around it. -/
def jsonLoads (l : List Char) : Option PyVal :=
  match parseVal (l.length + 1) (skipWs l) with
  | some (v, rest) => if (skipWs rest).isEmpty then some v else Option.none
  | none => Option.none

/-- `_try_parse_json_candidate`. -/
def _try_parse_json_candidate (cand : List Char) : Option PyVal :=
  let c := stripChars cand
  if c.isEmpty then Option.none
  else jsonLoads (_remove_json_comments c)

/-- `_extract_json`: markdown-fence removal + direct parse, then the first
balanced `{...}` span, then each explicitly ```json-fenced block of the
original text, in order. -/
def _extract_json (text : List Char) : Option PyVal :=
  if text.isEmpty then Option.none
  else
    let raw := stripChars (removeFence (removeFenceJson text))
    (_try_parse_json_candidate raw).orElse fun _ =>
      (((_balanced_json_snippet raw).bind _try_parse_json_candidate).orElse
        fun _ => (fencedJsonBlocks text).findSome? _try_parse_json_candidate)

/-! ### A canonical serializer for the extraction round-trip

`dumpChars` is the canonical single-line serialization of a model JSON
value (the shape `json.dumps(v, separators=(",", ":"))` emits).  `Safe`
carves out the values whose serialization the extractor can recover when
embedded in prose: string contents (and keys) avoid the quote, the
backslash, the braces, the slash, the backtick and control characters —
so the serialization is free of comment/fence markers and its braces are
exactly the structural ones — keys are unique, and floats are absent. -/

/-- Characters allowed in `Safe` strings. -/
def goodChar (c : Char) : Bool :=
  32 ≤ c.toNat ∧ c ≠ '"' ∧ c ≠ '\\' ∧ c ≠ '\x7b' ∧ c ≠ '\x7d' ∧
    c ≠ '/' ∧ c ≠ '\x60'

/-- A string fit for embedding in a `Safe` value. -/
def SafeStr (s : String) : Bool := s.data.all goodChar

/-- The key `k` does not occur in the association list. -/
def keyNotIn (k : String) (kvs : List (String × PyVal)) : Bool :=
  ¬kvs.any (fun p => p.1 = k)

mutual

/-- Values whose canonical serialization round-trips (see section
comment). -/
def Safe : PyVal → Bool
  | .none => true
  | .bool _ => true
  | .int _ => true
  | .floatLit _ => false
  | .str s => SafeStr s
  | .list xs => SafeList xs
  | .dict kvs => SafeDict kvs

def SafeList : List PyVal → Bool
  | [] => true
  | x :: xs => Safe x && SafeList xs

def SafeDict : List (String × PyVal) → Bool
  | [] => true
  | (k, v) :: kvs => SafeStr k && Safe v && keyNotIn k kvs && SafeDict kvs

end

/-- Decimal digits of a natural number, most significant first. -/
def natChars (m : Nat) : List Char :=
  if m = 0 then ['0'] else (Nat.digits 10 m).reverse.map Nat.digitChar

/-- Serialization of an integer. -/
def intChars (n : Int) : List Char :=
  if n < 0 then '-' :: natChars n.natAbs else natChars n.natAbs

mutual

/-- The canonical compact serialization. -/
def dumpChars : PyVal → List Char
  | .none => nullChars
  | .bool true => trueChars
  | .bool false => falseChars
  | .int n => intChars n
  | .floatLit s => s.data
  | .str s => '"' :: s.data ++ ['"']
  | .list xs => '[' :: dumpElemsChars xs ++ [']']
  | .dict kvs => '\x7b' :: dumpMembersChars kvs ++ ['\x7d']

def dumpElemsChars : List PyVal → List Char
  | [] => []
  | x :: xs => dumpChars x ++ dumpElemsRest xs

def dumpElemsRest : List PyVal → List Char
  | [] => []
  | x :: xs => ',' :: dumpChars x ++ dumpElemsRest xs

def dumpMembersChars : List (String × PyVal) → List Char
  | [] => []
  | (k, v) :: kvs =>
      '"' :: k.data ++ '"' :: ':' :: dumpChars v ++ dumpMembersRest kvs

def dumpMembersRest : List (String × PyVal) → List Char
  | [] => []
  | (k, v) :: kvs =>
      ',' :: '"' :: k.data ++ '"' :: ':' :: dumpChars v ++ dumpMembersRest kvs

end

mutual

/-- Fuel sufficient for `parseVal` on the serialization of a value. -/
def pfuel : PyVal → Nat
  | .list xs => 1 + pfuelList xs
  | .dict kvs => 1 + pfuelDict kvs
  | _ => 1

def pfuelList : List PyVal → Nat
  | [] => 1
  | x :: xs => 1 + max (pfuel x) (pfuelList xs)

def pfuelDict : List (String × PyVal) → Nat
  | [] => 1
  | (_, v) :: kvs => 1 + max (pfuel v) (pfuelDict kvs)

end

/-- The characters after a serialized number must not extend it. -/
def NumSep : List Char → Prop
  | [] => True
  | c :: _ => c.isDigit = false ∧ c ≠ '.' ∧ c ≠ 'e' ∧ c ≠ 'E'

/-- The separation condition `parseVal` needs on the trailing input; only
numbers are extendable. -/
def SepFor : PyVal → List Char → Prop
  | .int _, rest => NumSep rest
  | _, _ => True

/-- The parse/serialize round-trip property of a single value: with any
sufficient fuel, parsing its serialization followed by a separated
remainder recovers the value and the remainder exactly. -/
def RT (v : PyVal) : Prop :=
  Safe v = true → ∀ fuel, pfuel v ≤ fuel → ∀ rest, SepFor v rest →
    parseVal fuel (dumpChars v ++ rest) = some (v, rest)

/-- `r` is a suffix of `l` and no dropped character is an opening brace
(so a brace of `l` survives into `r`). -/
def Consumed (l r : List Char) : Prop :=
  ∃ c, l = c ++ r ∧ ∀ x ∈ c, x ≠ '\x7b'

/-! ### Dietary filtering -/

/-- The `RESTRICTED` table (note the key `"gluten free"`, with a space). -/
def RESTRICTED : List (String × List String) := [
  ("vegetarian",
    ["beef", "pork", "chicken", "turkey", "fish", "shrimp", "lamb", "bacon"]),
  ("vegan",
    ["beef", "pork", "chicken", "turkey", "fish", "shrimp", "lamb",
     "milk", "cheese", "butter", "yogurt", "cream", "egg", "honey"]),
  ("gluten free",
    ["wheat", "barley", "rye", "bread", "pasta", "flour",
     "spaghetti", "noodles", "bulgur", "couscous", "semolina"])]

/-- `RESTRICTED.get(d, set())`. -/
def restrictedGet (d : String) : List String :=
  ((RESTRICTED.find? (fun p => p.1 = d)).map (·.2)).getD []

/-- The `banned` set built in `_filter_inventory` (union over the tags;
only membership is consulted, so a list with duplicates models the set). -/
def bannedNames (dietary : List String) : List String :=
  dietary.flatMap (fun d => restrictedGet (pyLower d))

/-- The inner `_get_name` of `_filter_inventory`:
`item if isinstance(item, str) else str(item.get("name", "")).lower()`.
A plain string is returned as-is (NOT lowercased); only the structured
branch lowercases.  An item that is neither a string nor a dict raises
(`AttributeError` on `.get`). -/
def _get_name : PyVal → Except String String
  | .str s => .ok s
  | .dict kvs => .ok (pyLower (pyStr ((dictGet kvs "name").getD (.str ""))))
  | _ => .error "AttributeError: object has no attribute get"

/-- `_filter_inventory`: keep the items whose resolved name is not banned. -/
def _filter_inventory (inv : List PyVal) (dietary : List String) :
    Except String (List PyVal) :=
  match inv with
  | [] => .ok []
  | item :: rest =>
      match _get_name item with
      | .error e => .error e
      | .ok name =>
          match _filter_inventory rest dietary with
          | .error e => .error e
          | .ok tail =>
              .ok (if name ∈ bannedNames dietary then tail else item :: tail)

/-! ### Ingredient-structure normalization -/

/-- `_is_number`: whether Python `float(s)` succeeds — optional sign, then
a decimal literal (digits and/or a dot with at least one digit, optional
exponent) or `inf`/`infinity`/`nan` case-insensitively.  Digit-group
underscores are not modelled. -/
def _is_number (s : String) : Bool :=
  let l0 := stripChars s.data
  let l1 := match l0 with
    | '+' :: r => r
    | '-' :: r => r
    | _ => l0
  let low := l1.map Char.toLower
  if low = "inf".data ∨ low = "infinity".data ∨ low = "nan".data then true
  else
    let ip := l1.takeWhile Char.isDigit
    let r1 := l1.dropWhile Char.isDigit
    let afterMantissa : Option (List Char) :=
      match r1 with
      | '.' :: rest =>
          let fp := rest.takeWhile Char.isDigit
          if ip.isEmpty ∧ fp.isEmpty then Option.none
          else some (rest.dropWhile Char.isDigit)
      | _ => if ip.isEmpty then Option.none else some r1
    match afterMantissa with
    | none => false
    | some r2 =>
        match r2 with
        | [] => true
        | e :: rest =>
            if e = 'e' ∨ e = 'E' then
              let rest2 := match rest with
                | '+' :: r => r
                | '-' :: r => r
                | _ => rest
              let ed := rest2.takeWhile Char.isDigit
              ¬ed.isEmpty ∧ (rest2.dropWhile Char.isDigit).isEmpty
            else false

/-- `_normalize_ingredients_structure`.  A list passes through unchanged;
a dict of `name → quantity-description` is converted entry by entry
(`float(parts[0])` is carried as the literal `.floatLit parts[0]`; a
Python `bool` satisfies `isinstance(raw_qty, (int, float))` and, like
every non-string shape, is stored as the raw quantity); anything else
yields `[]`. -/
def _normalize_ingredients_structure : PyVal → List PyVal
  | .list xs => xs
  | .dict kvs => kvs.map (fun p =>
      match p.2 with
      | .str s =>
          let parts := pySplit s
          match parts with
          | p0 :: p1 :: _ =>
              if _is_number p0 then
                .dict [("name", .str p.1), ("quantity", .floatLit p0),
                       ("unit", .str p1)]
              else .dict [("name", .str p.1), ("quantity", .str s)]
          | _ => .dict [("name", .str p.1), ("quantity", .str s)]
      | q => .dict [("name", .str p.1), ("quantity", q)])
  | _ => []

/-! ### Recipe normalization (lines 340–372) -/

/-- Python `x or y`. -/
def pyOr (a b : PyVal) : PyVal := if pyTruthy a then a else b

/-- `r.get(k)` (default `None`). -/
def pyGet (kvs : List (String × PyVal)) (k : String) : PyVal :=
  (dictGet kvs k).getD .none

/-- Equality test against a given Python string (Python `==` between a
string and any non-string value is `False`). -/
def isStrEq (needle : String) : PyVal → Bool
  | .str s => s = needle
  | _ => false

/-- Substring containment on char lists. -/
def isInfixChars (pat : List Char) : List Char → Bool
  | [] => pat.isEmpty
  | c :: rest => pat.isPrefixOf (c :: rest) || isInfixChars pat rest

/-- Python `needle in x` for the shapes `json.loads` can produce: key
membership for a dict, element equality for a list, substring test for a
string, `TypeError` otherwise. -/
def pyIn (needle : String) : PyVal → Except String Bool
  | .dict kvs => .ok (kvs.any (fun p => p.1 = needle))
  | .list xs => .ok (xs.any (isStrEq needle))
  | .str s => .ok (isInfixChars needle.data s.data)
  | _ => .error "TypeError: argument is not iterable"

/-- Python `x[k]` with a string key. -/
def pySubscript (v : PyVal) (k : String) : Except String PyVal :=
  match v with
  | .dict kvs =>
      match dictGet kvs k with
      | some x => .ok x
      | none => .error "KeyError"
  | _ => .error "TypeError: value is not subscriptable"

/-- `isinstance(x, dict)`. -/
def isDict : PyVal → Bool
  | .dict _ => true
  | _ => false

/-- `isinstance(x, list)`. -/
def isList : PyVal → Bool
  | .list _ => true
  | _ => false

/-- Line 354: `r.get("title") or r.get("name") or r.get("recipe_name")
or "Untitled recipe"` — Python `or` falls through on FALSY values (e.g.
an empty string), not just on missing keys. -/
def resolveTitle (r : List (String × PyVal)) : PyVal :=
  pyOr (pyOr (pyOr (pyGet r "title") (pyGet r "name"))
    (pyGet r "recipe_name")) (.str "Untitled recipe")

/-- Lines 356, 360–365: `r.get("instructions") or r.get("steps") or []`,
then: a string becomes a one-element list, a list is stringified
element-wise, anything else becomes its stringification. -/
def resolveInstructions (r : List (String × PyVal)) : List PyVal :=
  match pyOr (pyOr (pyGet r "instructions") (pyGet r "steps")) (.list []) with
  | .str s => [.str s]
  | .list xs => xs.map (fun step => .str (pyStr step))
  | other => [.str (pyStr other)]

/-- Lines 358: the raw ingredients field (`r.get("ingredients", [])`)
passed through `_normalize_ingredients_structure`. -/
def resolveIngredients (r : List (String × PyVal)) : List PyVal :=
  _normalize_ingredients_structure ((dictGet r "ingredients").getD (.list []))

/-- One entry of the recipes list (lines 350–372): a non-dict entry is
dropped by the caller (`continue`); a dict gets canonical `title`,
`ingredients`, `instructions` assigned over a copy of its fields. -/
def normalizeRecipe : PyVal → Option PyVal
  | .dict r =>
      some (.dict (dictSet (dictSet (dictSet r "title" (resolveTitle r))
        "ingredients" (.list (resolveIngredients r)))
        "instructions" (.list (resolveInstructions r))))
  | _ => Option.none

/-- Lines 345–374: the second disambiguation (`"recipes" not in parsed or
not isinstance(parsed["recipes"], list)` wraps the whole object) followed
by the per-recipe loop; in the wrapping branch the loop then iterates
over the one-element list that was just wrapped. -/
def wrapAndNormalize (parsed1 : PyVal) : Except String (List PyVal) := do
  let hasRecipes ← pyIn "recipes" parsed1
  let recipesList : List PyVal ←
    if ¬hasRecipes then pure [parsed1]
    else do
      let rs ← pySubscript parsed1 "recipes"
      match rs with
      | .list xs => pure xs
      | _ => pure [parsed1]
  pure (recipesList.filterMap normalizeRecipe)

/-- Lines 340–374: shape disambiguation (`recipe` key holding a dict, then
a missing/non-list `recipes` key) followed by per-recipe normalization.
`.error` models a `TypeError`/`KeyError` escaping the function (Python
`and`/`or` short-circuiting is preserved). -/
def normalizeParsed (parsed : PyVal) : Except String (List PyVal) := do
  let hasRecipe ← pyIn "recipe" parsed
  let parsed1 ←
    if hasRecipe then do
      let pr ← pySubscript parsed "recipe"
      if isDict pr then pure (PyVal.dict [("recipes", .list [pr])])
      else pure parsed
    else pure parsed
  wrapAndNormalize parsed1

/-! ### The retry orchestrator -/

/-- The completion client, as an oracle over the global call count: entry
`n` answers the `(n+1)`-st `client.chat.completions.create` call.
`.error e` models the call raising an exception with message `e`;
`.ok s` models a response with message content `s`.  (The prompt texts
only vary what the opaque service sees, so the oracle absorbs them.) -/
def Client := Nat → Except String String

/-- Which stage issued a completion call. -/
inductive CallKind
  | primary
  | repair
deriving DecidableEq, Repr

/-- Instrumentation threaded through the loop: completion-call count, the
trace of calls `(attempt number, stage)`, and the `last_error` local. -/
structure LoopState where
  calls : Nat
  trace : List (Nat × CallKind)
  last_error : String

/-- The result dict of `suggest_recipes_from_groq`. -/
structure GenResult where
  error : Option String
  user_id : Option Int
  recipes : List PyVal

/-- `MAX_ATTEMPTS = 4`. -/
def MAX_ATTEMPTS : Nat := 4

/-- `_repair_json_via_groq`: one completion call at temperature 0; any
exception is swallowed into `none`; otherwise the response content goes
back through `_extract_json`. -/
def _repair_json_via_groq (client : Client) (st : LoopState) (attempt : Nat) :
    Option PyVal × LoopState :=
  let st' := { st with calls := st.calls + 1,
                       trace := st.trace ++ [(attempt, .repair)] }
  match client st.calls with
  | .error _ => (Option.none, st')
  | .ok fixed_raw => (_extract_json fixed_raw.data, st')

/-- Outcome of the body of one `for` iteration. -/
inductive AttemptOutcome where
  | success (r : GenResult)
  | failure (err : String)
  | raised (e : String)

/-- The body of one attempt (lines 304–393): primary call, extraction,
repair fallback, normalization, truncation to `num_recipes`, and the
external `normalize_ingredient_units` collaborator `normUnits`. -/
def attemptOnce (client : Client) (normUnits : List PyVal → Int → List PyVal)
    (user_id : Int) (num_recipes : Nat) (st : LoopState) (attempt : Nat) :
    AttemptOutcome × LoopState :=
  match client st.calls with
  | .error e =>
      (.failure ("Groq API error (" ++ e ++ ")"),
       { st with calls := st.calls + 1,
                 trace := st.trace ++ [(attempt, .primary)] })
  | .ok raw_content =>
      let st1 : LoopState :=
        { st with calls := st.calls + 1,
                  trace := st.trace ++ [(attempt, .primary)] }
      let parsedSt : Option PyVal × LoopState :=
        match _extract_json raw_content.data with
        | some p => (some p, st1)
        | none => _repair_json_via_groq client st1 attempt
      match parsedSt with
      | (none, st2) => (.failure "Invalid JSON returned from Groq", st2)
      | (some parsed, st2) =>
          match normalizeParsed parsed with
          | .error e => (.raised e, st2)
          | .ok normalized_input_recipes =>
              if normalized_input_recipes.isEmpty then
                (.failure "No valid recipes returned", st2)
              else
                (.success ⟨Option.none, some user_id,
                  normUnits (normalized_input_recipes.take num_recipes) user_id⟩,
                 st2)

/-- The retry loop (lines 280–395).  `fuel` is the number of remaining
iterations (`MAX_ATTEMPTS + 1 - attempt`); the `fuel = 0` case is the
fall-through return after the `for` loop (line 395).  Each failure branch
mirrors the source: retry while `attempt < MAX_ATTEMPTS`, else return the
bare `last_error`.  The jittered sleep is not modelled. -/
def attemptLoop (client : Client) (normUnits : List PyVal → Int → List PyVal)
    (user_id : Int) (num_recipes : Nat) :
    Nat → Nat → LoopState → Except String GenResult × LoopState
  | 0, _, st =>
      (.ok ⟨some ("Groq failed after " ++ toString MAX_ATTEMPTS
        ++ " attempts: " ++ st.last_error), Option.none, []⟩, st)
  | fuel + 1, attempt, st =>
      match attemptOnce client normUnits user_id num_recipes st attempt with
      | (.success r, st') => (.ok r, st')
      | (.raised e, st') => (.error e, st')
      | (.failure err, st') =>
          let st'' := { st' with last_error := err }
          if attempt < MAX_ATTEMPTS then
            attemptLoop client normUnits user_id num_recipes fuel
              (attempt + 1) st''
          else (.ok ⟨some err, Option.none, []⟩, st'')

/-- `user_prefs`: only `dietary` and `allergies` are read; `allergies`
only feeds the prompt text. -/
structure UserPrefs where
  dietary : List String
  allergies : List String

/-- `suggest_recipes_from_groq`.  The prompt assembly, spice lookup,
rating summary, temperature selection, `user_message` and `prev_recipe`
only shape the prompt text, which the `client` oracle absorbs;
`normalize_ingredient_units` is the external collaborator `normUnits`.
The result pairs the function's return value with the instrumentation
state; `.error` models an uncaught exception. -/
def suggest_recipes_from_groq (client : Client)
    (normUnits : List PyVal → Int → List PyVal) (user_id : Int)
    (ingredients : List PyVal) (user_prefs : UserPrefs)
    (num_recipes : Nat := 3) : Except String GenResult × LoopState :=
  let dietary := user_prefs.dietary.map (fun d => pyLower (pyStrip d))
  let st0 : LoopState := ⟨0, [], ""⟩
  match _filter_inventory ingredients dietary with
  | .error e => (.error e, st0)
  | .ok safe_inv =>
      if safe_inv.isEmpty then
        (.ok ⟨some "No safe ingredients available.", Option.none, []⟩, st0)
      else attemptLoop client normUnits user_id num_recipes MAX_ATTEMPTS 1 st0

/-- Decomposition of a call trace into per-attempt blocks, starting at a
given attempt number and call-counter value: each attempt contributes one
primary call, optionally followed by exactly one repair call, and a
repair call occurs only with evidence that the same attempt's primary
call returned a response that failed extraction. -/
inductive AttemptBlocks (client : Client) :
    Nat → Nat → List (Nat × CallKind) → Prop
  | nil (a k : Nat) : AttemptBlocks client a k []
  | primaryOnly (a k : Nat) (rest : List (Nat × CallKind)) :
      AttemptBlocks client (a + 1) (k + 1) rest →
      AttemptBlocks client a k ((a, .primary) :: rest)
  | withRepair (a k : Nat) (rest : List (Nat × CallKind)) (s : String) :
      client k = .ok s → _extract_json s.data = Option.none →
      AttemptBlocks client (a + 1) (k + 2) rest →
      AttemptBlocks client a k ((a, .primary) :: (a, .repair) :: rest)

/-! ## Basic dictionary lemmas -/

theorem dictGet_dictSet_self (l : List (String × PyVal)) (k : String)
    (v : PyVal) : dictGet (dictSet l k v) k = some v := by
  induction l with
  | nil => simp [dictSet, dictGet]
  | cons p rest ih =>
      obtain ⟨k', v'⟩ := p
      by_cases h : k' = k
      · subst h
        simp [dictSet, dictGet]
      · simp only [dictSet, if_neg h]
        simpa [dictGet, List.find?_cons, h] using ih

theorem dictGet_dictSet_ne (l : List (String × PyVal)) (k k' : String)
    (v : PyVal) (hne : k' ≠ k) : dictGet (dictSet l k' v) k = dictGet l k := by
  induction l with
  | nil => simp [dictSet, dictGet, hne]
  | cons p rest ih =>
      obtain ⟨k'', v''⟩ := p
      by_cases h : k'' = k'
      · subst h
        simp [dictSet, dictGet, List.find?_cons, hne]
      · simp only [dictSet, if_neg h]
        by_cases hk : k'' = k
        · simp [dictGet, List.find?_cons, hk]
        · simpa [dictGet, List.find?_cons, hk] using ih

/-! ## Structure of normalized recipes -/

theorem normalizeRecipe_eq_some {x r : PyVal} (h : normalizeRecipe x = some r) :
    ∃ kvs, x = .dict kvs ∧
      r = .dict (dictSet (dictSet (dictSet kvs "title" (resolveTitle kvs))
        "ingredients" (.list (resolveIngredients kvs)))
        "instructions" (.list (resolveInstructions kvs))) := by
  cases x with
  | dict kvs =>
      refine ⟨kvs, rfl, ?_⟩
      simpa [normalizeRecipe] using h.symm
  | none => simp [normalizeRecipe] at h
  | bool b => simp [normalizeRecipe] at h
  | int n => simp [normalizeRecipe] at h
  | floatLit s => simp [normalizeRecipe] at h
  | str s => simp [normalizeRecipe] at h
  | list xs => simp [normalizeRecipe] at h

theorem resolveInstructions_all_str (r : List (String × PyVal)) :
    ∀ e ∈ resolveInstructions r, ∃ s, e = PyVal.str s := by
  intro e he
  unfold resolveInstructions at he
  split at he
  · simp at he
    exact ⟨_, he⟩
  · rw [List.mem_map] at he
    obtain ⟨step, _, rfl⟩ := he
    exact ⟨_, rfl⟩
  · simp at he
    exact ⟨_, he⟩

theorem wrapAndNormalize_ok_shape {p1 : PyVal} {out : List PyVal}
    (h : wrapAndNormalize p1 = .ok out) :
    ∃ rl : List PyVal, out = rl.filterMap normalizeRecipe := by
  unfold wrapAndNormalize at h
  simp only [bind, Except.bind, pure, Except.pure] at h
  rcases h3 : pyIn "recipes" p1 with e | hasRecipes <;> rw [h3] at h
  · cases h
  · by_cases h4 : hasRecipes = true
    · simp only [h4, not_true, if_false, Bool.not_true, ite_false] at h
      rcases h5 : pySubscript p1 "recipes" with e | rs <;> rw [h5] at h
      · cases h
      · cases rs <;> simp only [] at h <;> exact ⟨_, (by cases h; rfl)⟩
    · have h4' : hasRecipes = false := eq_false_of_ne_true h4
      simp only [h4', Bool.not_false, ite_true] at h
      exact ⟨_, (by cases h; rfl)⟩

theorem normalizeParsed_ok_shape {parsed : PyVal} {out : List PyVal}
    (h : normalizeParsed parsed = .ok out) :
    ∃ rl : List PyVal, out = rl.filterMap normalizeRecipe := by
  unfold normalizeParsed at h
  simp only [bind, Except.bind, pure, Except.pure] at h
  rcases h1 : pyIn "recipe" parsed with e | hasRecipe <;> rw [h1] at h
  · cases h
  · by_cases hb : hasRecipe = true
    · simp only [hb, if_true] at h
      rcases h2 : pySubscript parsed "recipe" with e | pr <;> rw [h2] at h
      · cases h
      · by_cases hd : isDict pr = true
        · simp only [hd, if_true] at h
          exact wrapAndNormalize_ok_shape h
        · simp only [eq_false_of_ne_true hd, if_false] at h
          exact wrapAndNormalize_ok_shape h
    · simp only [eq_false_of_ne_true hb, if_false] at h
      exact wrapAndNormalize_ok_shape h

/-! ## Claim C3 — instructions after normalization -/

/-- C3, counterexample: the claim says every normalized recipe has a
NON-EMPTY instructions list, but a recipe carrying neither
`instructions` nor `steps` normalizes to an empty one. -/
theorem claim_C3_counterexample :
    normalizeParsed (.dict [("recipes", PyVal.list [.dict [("title", .str "X")]])])
      = .ok [.dict [("title", .str "X"), ("ingredients", .list []),
          ("instructions", .list [])]] ∧
    dictGet [("title", PyVal.str "X"), ("ingredients", PyVal.list []),
      ("instructions", PyVal.list [])] "instructions" = some (.list []) :=
  ⟨rfl, rfl⟩

/-- C3 (amended): for every parsed JSON object fed through recipe
normalization, every recipe in the normalized result has an
`instructions` field that is a sequence whose elements are all strings
(never raw non-string content) — but the sequence may be empty, e.g.
when the recipe has neither `instructions` nor `steps`. -/
theorem claim_C3 :
    ∀ (parsed : PyVal) (out : List PyVal), normalizeParsed parsed = .ok out →
    ∀ r ∈ out, ∃ kvs l, r = PyVal.dict kvs ∧
      dictGet kvs "instructions" = some (.list l) ∧
      ∀ e ∈ l, ∃ s, e = PyVal.str s := by
  intro parsed out h r hr
  obtain ⟨rl, rfl⟩ := normalizeParsed_ok_shape h
  rw [List.mem_filterMap] at hr
  obtain ⟨x, _, hx⟩ := hr
  obtain ⟨kvs, _, rfl⟩ := normalizeRecipe_eq_some hx
  exact ⟨_, resolveInstructions kvs, rfl, dictGet_dictSet_self _ _ _,
    resolveInstructions_all_str kvs⟩

/-- C3, witness: the amended theorem applied at a concrete run. -/
theorem claim_C3_witness :
    ∃ kvs l, (PyVal.dict [("title", PyVal.str "X"), ("ingredients", .list []),
        ("instructions", .list [])]) = PyVal.dict kvs ∧
      dictGet kvs "instructions" = some (.list l) ∧
      ∀ e ∈ l, ∃ s, e = PyVal.str s :=
  claim_C3 (.dict [("recipes", PyVal.list [.dict [("title", .str "X")]])])
    [.dict [("title", .str "X"), ("ingredients", .list []),
      ("instructions", .list [])]] rfl _ (List.mem_singleton.mpr rfl)

/-! ## Claim C4 — ingredient names after normalization -/

/-- C4, counterexample: a list-shaped ingredients value passes through
`_normalize_ingredients_structure` unchanged, so an entry may lack a
`name` field entirely, contradicting "name is present and non-empty for
every entry". -/
theorem claim_C4_counterexample :
    _normalize_ingredients_structure (.list [.dict [("quantity", PyVal.int 5)]])
      = [.dict [("quantity", PyVal.int 5)]] ∧
    dictGet [("quantity", PyVal.int 5)] "name" = Option.none :=
  ⟨rfl, rfl⟩

/-- C4 (amended): entries produced from a mapping-shaped ingredients value
always carry a `name` field holding the mapping key (hence non-empty
whenever the key is non-empty), while an already-list ingredients value
passes through unchanged, so its entries may lack a name. -/
theorem claim_C4 :
    (∀ kvs : List (String × PyVal),
      ∀ e ∈ _normalize_ingredients_structure (.dict kvs),
      ∃ p ∈ kvs, ∃ rest, e = PyVal.dict (("name", PyVal.str p.1) :: rest) ∧
        dictGet (("name", PyVal.str p.1) :: rest) "name" = some (.str p.1)) ∧
    (∀ xs : List PyVal, _normalize_ingredients_structure (.list xs) = xs) := by
  constructor
  · intro kvs e he
    unfold _normalize_ingredients_structure at he
    rw [List.mem_map] at he
    obtain ⟨p, hp, rfl⟩ := he
    obtain ⟨k, q⟩ := p
    refine ⟨(k, q), hp, ?_⟩
    cases q with
    | str s =>
        simp only []
        rcases pySplit s with _ | ⟨p0, _ | ⟨p1, ps⟩⟩
        · exact ⟨_, rfl, rfl⟩
        · exact ⟨_, rfl, rfl⟩
        · by_cases hn : _is_number p0
          · simp only [hn, if_true]
            exact ⟨_, rfl, rfl⟩
          · simp only [hn, if_false]
            exact ⟨_, rfl, rfl⟩
    | none => exact ⟨_, rfl, rfl⟩
    | bool b => exact ⟨_, rfl, rfl⟩
    | int n => exact ⟨_, rfl, rfl⟩
    | floatLit f => exact ⟨_, rfl, rfl⟩
    | list xs => exact ⟨_, rfl, rfl⟩
    | dict d => exact ⟨_, rfl, rfl⟩
  · intro xs
    rfl

/-- C4, witness: the amended theorem applied at a concrete mapping. -/
theorem claim_C4_witness :
    ∃ p ∈ [("flour", PyVal.str "200 grams")], ∃ rest,
      (PyVal.dict [("name", .str "flour"), ("quantity", .floatLit "200"),
        ("unit", .str "grams")]) = PyVal.dict (("name", PyVal.str p.1) :: rest) ∧
      dictGet (("name", PyVal.str p.1) :: rest) "name" = some (.str p.1) :=
  claim_C4.1 [("flour", PyVal.str "200 grams")] _ (List.mem_singleton.mpr rfl)

/-! ## Claim C9 — title resolution -/

/-- C9, counterexample: with `{"title": "", "name": "X"}` the first
PRESENT key is `title` (value `""`), yet the normalized title is `"X"`:
Python `or` skips falsy present values, so "value of the first present
key" is wrong. -/
theorem claim_C9_counterexample :
    normalizeRecipe (.dict [("title", PyVal.str ""), ("name", PyVal.str "X")])
      = some (.dict [("title", .str "X"), ("name", .str "X"),
          ("ingredients", .list []), ("instructions", .list [])]) ∧
    PyVal.str "X" ≠ PyVal.str "" :=
  ⟨rfl, by simp⟩

/-- C9 (amended): the normalized title is the value of the first key among
`title`, `name`, `recipe_name` whose value is TRUTHY (so e.g. an empty
string is skipped), and it is `"Untitled recipe"` exactly when none of
the three values is truthy. -/
theorem claim_C9 :
    ∀ (r : List (String × PyVal)) (out : PyVal),
    normalizeRecipe (.dict r) = some out →
    ∃ kvs, out = PyVal.dict kvs ∧
      dictGet kvs "title" = some (resolveTitle r) ∧
      ((pyTruthy (pyGet r "title") = true ∧ resolveTitle r = pyGet r "title") ∨
       (pyTruthy (pyGet r "title") = false ∧ pyTruthy (pyGet r "name") = true ∧
         resolveTitle r = pyGet r "name") ∨
       (pyTruthy (pyGet r "title") = false ∧ pyTruthy (pyGet r "name") = false ∧
         pyTruthy (pyGet r "recipe_name") = true ∧
         resolveTitle r = pyGet r "recipe_name") ∨
       (pyTruthy (pyGet r "title") = false ∧ pyTruthy (pyGet r "name") = false ∧
         pyTruthy (pyGet r "recipe_name") = false ∧
         resolveTitle r = .str "Untitled recipe")) := by
  intro r out h
  obtain ⟨kvs, hx, hout⟩ := normalizeRecipe_eq_some h
  injection hx with hx'
  subst hx'
  refine ⟨_, hout, ?_, ?_⟩
  · rw [dictGet_dictSet_ne _ _ _ _ (by decide),
      dictGet_dictSet_ne _ _ _ _ (by decide), dictGet_dictSet_self]
  · unfold resolveTitle pyOr
    by_cases h1 : pyTruthy (pyGet r "title")
    · left
      simp [h1]
    · by_cases h2 : pyTruthy (pyGet r "name")
      · right; left
        simp [eq_false_of_ne_true h1, h2]
      · by_cases h3 : pyTruthy (pyGet r "recipe_name")
        · right; right; left
          simp [eq_false_of_ne_true h1, eq_false_of_ne_true h2, h3]
        · right; right; right
          simp [eq_false_of_ne_true h1, eq_false_of_ne_true h2,
            eq_false_of_ne_true h3]

/-- C9, witness: the amended theorem applied at a concrete recipe dict. -/
theorem claim_C9_witness :
    ∃ kvs, (PyVal.dict [("name", PyVal.str "Pie"), ("title", .str "Pie"),
        ("ingredients", .list []), ("instructions", .list [])])
        = PyVal.dict kvs ∧
      dictGet kvs "title" = some (resolveTitle [("name", PyVal.str "Pie")]) ∧
      ((pyTruthy (pyGet [("name", PyVal.str "Pie")] "title") = true ∧
        resolveTitle [("name", PyVal.str "Pie")]
          = pyGet [("name", PyVal.str "Pie")] "title") ∨
       (pyTruthy (pyGet [("name", PyVal.str "Pie")] "title") = false ∧
        pyTruthy (pyGet [("name", PyVal.str "Pie")] "name") = true ∧
        resolveTitle [("name", PyVal.str "Pie")]
          = pyGet [("name", PyVal.str "Pie")] "name") ∨
       (pyTruthy (pyGet [("name", PyVal.str "Pie")] "title") = false ∧
        pyTruthy (pyGet [("name", PyVal.str "Pie")] "name") = false ∧
        pyTruthy (pyGet [("name", PyVal.str "Pie")] "recipe_name") = true ∧
        resolveTitle [("name", PyVal.str "Pie")]
          = pyGet [("name", PyVal.str "Pie")] "recipe_name") ∨
       (pyTruthy (pyGet [("name", PyVal.str "Pie")] "title") = false ∧
        pyTruthy (pyGet [("name", PyVal.str "Pie")] "name") = false ∧
        pyTruthy (pyGet [("name", PyVal.str "Pie")] "recipe_name") = false ∧
        resolveTitle [("name", PyVal.str "Pie")] = .str "Untitled recipe")) :=
  claim_C9 [("name", PyVal.str "Pie")] _ rfl

/-! ## Unfolding lemmas for the retry loop -/

theorem attemptLoop_succ (client : Client)
    (nu : List PyVal → Int → List PyVal) (uid : Int) (n : Nat)
    (fuel attempt : Nat) (st : LoopState) :
    attemptLoop client nu uid n (fuel + 1) attempt st =
      match attemptOnce client nu uid n st attempt with
      | (.success r, st') => (.ok r, st')
      | (.raised e, st') => (.error e, st')
      | (.failure err, st') =>
          if attempt < MAX_ATTEMPTS then
            attemptLoop client nu uid n fuel (attempt + 1)
              { st' with last_error := err }
          else (.ok ⟨some err, Option.none, []⟩,
            { st' with last_error := err }) := rfl

/-- One attempt against a client whose next two answers are returned but
fail extraction: the primary call fails to parse, the repair call fails
to parse, and the attempt fails with `Invalid JSON returned from Groq`
after two completion calls. -/
theorem attemptOnce_unparsable {client : Client}
    {nu : List PyVal → Int → List PyVal} {uid : Int} {n : Nat}
    (st : LoopState) (attempt : Nat) {s0 s1 : String}
    (h0 : client st.calls = .ok s0)
    (e0 : _extract_json s0.data = Option.none)
    (h1 : client (st.calls + 1) = .ok s1)
    (e1 : _extract_json s1.data = Option.none) :
    attemptOnce client nu uid n st attempt =
      (.failure "Invalid JSON returned from Groq",
       { st with
          calls := st.calls + 2,
          trace := st.trace ++ [(attempt, .primary), (attempt, .repair)] }) := by
  simp [attemptOnce, _repair_json_via_groq, h0, e0, h1, e1]

/-- A non-final attempt with two unparsable answers retries with the next
attempt number, two more calls on the clock and the error recorded. -/
theorem attemptLoop_unparsable_step {client : Client}
    {nu : List PyVal → Int → List PyVal} {uid : Int} {n : Nat}
    (fuel attempt : Nat) (st : LoopState) {s0 s1 : String}
    (h0 : client st.calls = .ok s0)
    (e0 : _extract_json s0.data = Option.none)
    (h1 : client (st.calls + 1) = .ok s1)
    (e1 : _extract_json s1.data = Option.none)
    (hf : 0 < fuel) (hlt : attempt < MAX_ATTEMPTS) :
    attemptLoop client nu uid n fuel attempt st =
      attemptLoop client nu uid n (fuel - 1) (attempt + 1)
        { st with
           calls := st.calls + 2,
           trace := st.trace ++ [(attempt, .primary), (attempt, .repair)],
           last_error := "Invalid JSON returned from Groq" } := by
  obtain ⟨k, rfl⟩ : ∃ k, fuel = k + 1 := ⟨fuel - 1, by omega⟩
  rw [attemptLoop_succ, attemptOnce_unparsable st attempt h0 e0 h1 e1]
  show (if attempt < MAX_ATTEMPTS then _ else _) = _
  rw [if_pos hlt]
  rfl

/-- The final attempt (`¬ attempt < MAX_ATTEMPTS`) with two unparsable
answers returns the bare error with empty recipes. -/
theorem attemptLoop_unparsable_last {client : Client}
    {nu : List PyVal → Int → List PyVal} {uid : Int} {n : Nat}
    (fuel attempt : Nat) (st : LoopState) {s0 s1 : String}
    (h0 : client st.calls = .ok s0)
    (e0 : _extract_json s0.data = Option.none)
    (h1 : client (st.calls + 1) = .ok s1)
    (e1 : _extract_json s1.data = Option.none)
    (hf : 0 < fuel) (hge : ¬ attempt < MAX_ATTEMPTS) :
    attemptLoop client nu uid n fuel attempt st =
      (.ok ⟨some "Invalid JSON returned from Groq", Option.none, []⟩,
       { st with
          calls := st.calls + 2,
          trace := st.trace ++ [(attempt, .primary), (attempt, .repair)],
          last_error := "Invalid JSON returned from Groq" }) := by
  obtain ⟨k, rfl⟩ : ∃ k, fuel = k + 1 := ⟨fuel - 1, by omega⟩
  rw [attemptLoop_succ, attemptOnce_unparsable st attempt h0 e0 h1 e1]
  show (if attempt < MAX_ATTEMPTS then _ else _) = _
  rw [if_neg hge]

/-! ## Claim C1 — retry bound with an always-unparsable client -/

/-- C1 (confirmed): with a completion client whose every answer fails
extraction, the run returns the Exhausted-kind error result
`{error: "Invalid JSON returned from Groq", recipes: []}`; the trace
shows exactly attempts 1..MAX_ATTEMPTS, with exactly MAX_ATTEMPTS
primary calls (the repair calls are sub-calls inside an attempt and are
not counted against the attempt budget). -/
theorem claim_C1 :
    ∀ (client : Client) (normUnits : List PyVal → Int → List PyVal)
      (uid : Int) (inv : List PyVal) (prefs : UserPrefs) (n : Nat)
      (safe : List PyVal),
    (∀ k, ∃ s, client k = .ok s ∧ _extract_json s.data = Option.none) →
    _filter_inventory inv (prefs.dietary.map (fun d => pyLower (pyStrip d)))
      = .ok safe →
    safe ≠ [] →
    suggest_recipes_from_groq client normUnits uid inv prefs n =
      (.ok ⟨some "Invalid JSON returned from Groq", Option.none, []⟩,
       ⟨2 * MAX_ATTEMPTS,
        [(1, .primary), (1, .repair), (2, .primary), (2, .repair),
         (3, .primary), (3, .repair), (4, .primary), (4, .repair)],
        "Invalid JSON returned from Groq"⟩) ∧
    ([((1:Nat), CallKind.primary), (1, .repair), (2, .primary), (2, .repair),
      (3, .primary), (3, .repair), (4, .primary), (4, .repair)].countP
        (fun c => c.2 == CallKind.primary)) = MAX_ATTEMPTS ∧
    ([((1:Nat), CallKind.primary), (1, .repair), (2, .primary), (2, .repair),
      (3, .primary), (3, .repair), (4, .primary), (4, .repair)].map Prod.fst)
      = [1, 1, 2, 2, 3, 3, 4, 4] := by
  intro client nu uid inv prefs n safe hc hf hne
  obtain ⟨s0, h0, e0⟩ := hc 0
  obtain ⟨s1, h1, e1⟩ := hc 1
  obtain ⟨s2, h2, e2⟩ := hc 2
  obtain ⟨s3, h3, e3⟩ := hc 3
  obtain ⟨s4, h4, e4⟩ := hc 4
  obtain ⟨s5, h5, e5⟩ := hc 5
  obtain ⟨s6, h6, e6⟩ := hc 6
  obtain ⟨s7, h7, e7⟩ := hc 7
  refine ⟨?_, by decide, rfl⟩
  simp only [suggest_recipes_from_groq]
  rw [hf]
  show (if safe.isEmpty = true then _ else _) = _
  rw [if_neg (by simpa [List.isEmpty_iff] using hne)]
  rw [attemptLoop_unparsable_step MAX_ATTEMPTS 1 _ h0 e0 h1 e1
      (by decide) (by decide)]
  rw [attemptLoop_unparsable_step (MAX_ATTEMPTS - 1) (1 + 1) _ h2 e2 h3 e3
      (by decide) (by decide)]
  rw [attemptLoop_unparsable_step (MAX_ATTEMPTS - 1 - 1) (1 + 1 + 1) _
      h4 e4 h5 e5 (by decide) (by decide)]
  rw [attemptLoop_unparsable_last (MAX_ATTEMPTS - 1 - 1 - 1) (1 + 1 + 1 + 1) _
      h6 e6 h7 e7 (by decide) (by decide)]
  rfl

/-- C1, witness: a client constantly answering `"not json"`. -/
theorem claim_C1_witness :
    suggest_recipes_from_groq (fun _ => .ok "not json") (fun l _ => l) 7
      [PyVal.str "rice"] ⟨[], []⟩ 3 =
      (.ok ⟨some "Invalid JSON returned from Groq", Option.none, []⟩,
       ⟨2 * MAX_ATTEMPTS,
        [(1, .primary), (1, .repair), (2, .primary), (2, .repair),
         (3, .primary), (3, .repair), (4, .primary), (4, .repair)],
        "Invalid JSON returned from Groq"⟩) :=
  (claim_C1 (fun _ => .ok "not json") (fun l _ => l) 7 [PyVal.str "rice"]
    ⟨[], []⟩ 3 [PyVal.str "rice"]
    (fun _ => ⟨"not json", rfl, by with_unfolding_all rfl⟩) rfl (by simp)).1

/-! ## Claim C2 — shape of the exhaustion result -/

/-- When every answered completion either fails extraction or normalizes
to zero recipes, each attempt fails with one of the three retryable bare
errors, leaving `last_error` untouched within the attempt body. -/
theorem attemptOnce_failure {client : Client}
    {nu : List PyVal → Int → List PyVal} {uid : Int} {n : Nat}
    (Hf : ∀ k s, client k = .ok s →
      _extract_json s.data = Option.none ∨
      ∃ j, _extract_json s.data = some j ∧ normalizeParsed j = .ok [])
    (st : LoopState) (attempt : Nat) :
    ∃ err st', attemptOnce client nu uid n st attempt = (.failure err, st') ∧
      st'.last_error = st.last_error ∧
      (err = "Invalid JSON returned from Groq" ∨
       err = "No valid recipes returned" ∨
       ∃ e, err = "Groq API error (" ++ e ++ ")") := by
  rcases hc : client st.calls with e | s
  · refine ⟨"Groq API error (" ++ e ++ ")",
      { st with
         calls := st.calls + 1,
         trace := st.trace ++ [(attempt, .primary)] },
      ?_, rfl, Or.inr (Or.inr ⟨e, rfl⟩)⟩
    simp [attemptOnce, hc]
  · rcases Hf _ _ hc with he | ⟨j, hj, hnorm⟩
    · rcases hc2 : client (st.calls + 1) with e2 | s2
      · refine ⟨"Invalid JSON returned from Groq",
          { st with
             calls := st.calls + 2,
             trace := st.trace ++ [(attempt, .primary), (attempt, .repair)] },
          ?_, rfl, Or.inl rfl⟩
        simp [attemptOnce, _repair_json_via_groq, hc, he, hc2]
      · rcases Hf _ _ hc2 with he2 | ⟨j2, hj2, hn2⟩
        · refine ⟨"Invalid JSON returned from Groq",
            { st with
               calls := st.calls + 2,
               trace := st.trace ++ [(attempt, .primary), (attempt, .repair)] },
            ?_, rfl, Or.inl rfl⟩
          simp [attemptOnce, _repair_json_via_groq, hc, he, hc2, he2]
        · refine ⟨"No valid recipes returned",
            { st with
               calls := st.calls + 2,
               trace := st.trace ++ [(attempt, .primary), (attempt, .repair)] },
            ?_, rfl, Or.inr (Or.inl rfl)⟩
          simp [attemptOnce, _repair_json_via_groq, hc, he, hc2, hj2, hn2]
    · refine ⟨"No valid recipes returned",
        { st with
           calls := st.calls + 1,
           trace := st.trace ++ [(attempt, .primary)] },
        ?_, rfl, Or.inr (Or.inl rfl)⟩
      simp [attemptOnce, hc, hj, hnorm]

/-- Exhaustion always returns through an in-loop `return` carrying the
bare `last_error`; the wrapped fall-through return is never reached. -/
theorem attemptLoop_failure_general {client : Client}
    {nu : List PyVal → Int → List PyVal} {uid : Int} {n : Nat}
    (Hf : ∀ k s, client k = .ok s →
      _extract_json s.data = Option.none ∨
      ∃ j, _extract_json s.data = some j ∧ normalizeParsed j = .ok []) :
    ∀ (fuel attempt : Nat) (st : LoopState),
      attempt + fuel = MAX_ATTEMPTS + 1 → 1 ≤ fuel →
      ∃ err st', attemptLoop client nu uid n fuel attempt st =
        (.ok ⟨some err, Option.none, []⟩, st') ∧
        st'.last_error = err ∧
        (err = "Invalid JSON returned from Groq" ∨
         err = "No valid recipes returned" ∨
         ∃ e, err = "Groq API error (" ++ e ++ ")") := by
  intro fuel
  induction fuel with
  | zero => intro att st _ h1; omega
  | succ k ih =>
      intro att st hinv _
      obtain ⟨err, st', heq, hlast, hsh⟩ := attemptOnce_failure Hf st att
      have hstep := attemptLoop_succ client nu uid n k att st
      rw [heq] at hstep
      have hstep2 : attemptLoop client nu uid n (k + 1) att st =
          (if att < MAX_ATTEMPTS then
            attemptLoop client nu uid n k (att + 1) { st' with last_error := err }
          else (.ok ⟨some err, Option.none, []⟩,
            { st' with last_error := err })) := hstep
      by_cases hlt : att < MAX_ATTEMPTS
      · rw [if_pos hlt] at hstep2
        rw [hstep2]
        exact ih (att + 1) { st' with last_error := err } (by omega)
          (by simp [MAX_ATTEMPTS] at hlt hinv ⊢; omega)
      · rw [if_neg hlt] at hstep2
        rw [hstep2]
        exact ⟨err, _, rfl, rfl, hsh⟩

/-- C2, counterexample: with a client whose answers never parse, the run
exhausts its budget and returns the BARE error `"Invalid JSON returned
from Groq"`, not the claimed `"<stage> failed after 4 attempts: ..."`
wrapping. -/
theorem claim_C2_counterexample :
    (suggest_recipes_from_groq (fun _ => .ok "not json") (fun l _ => l) 7
      [PyVal.str "rice"] ⟨[], []⟩ 3).1 =
      .ok ⟨some "Invalid JSON returned from Groq", Option.none, []⟩ ∧
    "Invalid JSON returned from Groq" ≠
      "Groq failed after " ++ toString MAX_ATTEMPTS ++ " attempts: "
        ++ "Invalid JSON returned from Groq" := by
  constructor
  · with_unfolding_all rfl
  · decide

/-- C2 (amended): whenever the retry budget is exhausted (every answered
completion fails extraction or yields zero recipes), the function
returns `{error: <last_error>, recipes: []}` where `<last_error>` is the
BARE description of the final attempt's error — one of `"Invalid JSON
returned from Groq"`, `"No valid recipes returned"`, `"Groq API error
(<e>)"` — and never the `"... failed after MAX_ATTEMPTS attempts: ..."`
wrapping of that error (the fall-through return carrying that wrapping is
unreachable). -/
theorem claim_C2 :
    ∀ (client : Client) (normUnits : List PyVal → Int → List PyVal)
      (uid : Int) (inv : List PyVal) (prefs : UserPrefs) (n : Nat)
      (safe : List PyVal),
    (∀ k s, client k = .ok s →
      _extract_json s.data = Option.none ∨
      ∃ j, _extract_json s.data = some j ∧ normalizeParsed j = .ok []) →
    _filter_inventory inv (prefs.dietary.map (fun d => pyLower (pyStrip d)))
      = .ok safe →
    safe ≠ [] →
    ∃ err,
      (suggest_recipes_from_groq client normUnits uid inv prefs n).1 =
        .ok ⟨some err, Option.none, []⟩ ∧
      (suggest_recipes_from_groq client normUnits uid inv prefs n).2.last_error
        = err ∧
      (err = "Invalid JSON returned from Groq" ∨
       err = "No valid recipes returned" ∨
       ∃ e, err = "Groq API error (" ++ e ++ ")") ∧
      err ≠ "Groq failed after " ++ toString MAX_ATTEMPTS ++ " attempts: "
        ++ err := by
  intro client nu uid inv prefs n safe Hf hfil hne
  obtain ⟨err, st', heq, hlast, hsh⟩ :=
    attemptLoop_failure_general Hf MAX_ATTEMPTS 1 ⟨0, [], ""⟩
      (by decide) (by decide)
  have hs : suggest_recipes_from_groq client nu uid inv prefs n =
      (.ok ⟨some err, Option.none, []⟩, st') := by
    simp only [suggest_recipes_from_groq]
    rw [hfil]
    show (if safe.isEmpty = true then _ else _) = _
    rw [if_neg (by simpa [List.isEmpty_iff] using hne)]
    exact heq
  refine ⟨err, by rw [hs], by rw [hs]; exact hlast, hsh, ?_⟩
  intro hcontra
  have hlen := congrArg String.length hcontra
  rw [String.length_append, String.length_append, String.length_append]
    at hlen
  have h18 : ("Groq failed after " : String).length = 18 := rfl
  omega

/-- C2, witness: the amended theorem applied to a concrete client. -/
theorem claim_C2_witness :
    ∃ err, (suggest_recipes_from_groq (fun _ => .ok "not json")
        (fun l _ => l) 7 [PyVal.str "rice"] ⟨[], []⟩ 3).1 =
        .ok ⟨some err, Option.none, []⟩ ∧
      (suggest_recipes_from_groq (fun _ => .ok "not json")
        (fun l _ => l) 7 [PyVal.str "rice"] ⟨[], []⟩ 3).2.last_error = err ∧
      (err = "Invalid JSON returned from Groq" ∨
       err = "No valid recipes returned" ∨
       ∃ e, err = "Groq API error (" ++ e ++ ")") ∧
      err ≠ "Groq failed after " ++ toString MAX_ATTEMPTS ++ " attempts: "
        ++ err :=
  claim_C2 (fun _ => .ok "not json") (fun l _ => l) 7 [PyVal.str "rice"]
    ⟨[], []⟩ 3 [PyVal.str "rice"]
    (fun k s h => Or.inl (by cases h; with_unfolding_all rfl)) rfl (by simp)

/-! ## Claim C7, part 1 — numbers and strings round-trip -/

theorem digitChar_toNat {d : Nat} (h : d < 10) :
    (Nat.digitChar d).toNat = 48 + d := by
  interval_cases d <;> rfl

theorem digitChar_isDigit {d : Nat} (h : d < 10) :
    (Nat.digitChar d).isDigit = true := by
  interval_cases d <;> rfl

theorem natChars_all_digit (m : Nat) : ∀ c ∈ natChars m, c.isDigit = true := by
  intro c hc
  unfold natChars at hc
  split at hc
  · simp at hc
    subst hc
    rfl
  · rw [List.mem_map] at hc
    obtain ⟨d, hd, rfl⟩ := hc
    rw [List.mem_reverse] at hd
    exact digitChar_isDigit (Nat.digits_lt_base (by norm_num) hd)

theorem natChars_ne_nil (m : Nat) : natChars m ≠ [] := by
  unfold natChars
  split
  · simp
  · simp only [ne_eq, List.map_eq_nil_iff, List.reverse_eq_nil_iff]
    exact Nat.digits_ne_nil_iff_ne_zero.mpr ‹¬m = 0›

theorem dv_digits : ∀ m : Nat,
    digitsVal ((Nat.digits 10 m).reverse.map Nat.digitChar) = m := by
  intro m
  induction m using Nat.strong_induction_on with
  | _ m ih =>
    rcases Nat.eq_zero_or_pos m with rfl | hm
    · simp [digitsVal]
    · rw [Nat.digits_def' (by norm_num : 1 < 10) hm, List.reverse_cons,
        List.map_append]
      unfold digitsVal
      rw [List.foldl_append]
      have ihr := ih (m / 10) (Nat.div_lt_self hm (by norm_num))
      unfold digitsVal at ihr
      rw [ihr]
      simp only [List.map_cons, List.map_nil, List.foldl_cons, List.foldl_nil]
      rw [digitChar_toNat (Nat.mod_lt m (by norm_num))]
      omega

theorem digitsVal_natChars (m : Nat) : digitsVal (natChars m) = m := by
  unfold natChars
  split
  · subst ‹m = 0›
    rfl
  · exact dv_digits m

theorem takeWhile_append_all {p : Char → Bool} :
    ∀ (a b : List Char), (∀ c ∈ a, p c = true) →
      (a ++ b).takeWhile p = a ++ b.takeWhile p ∧
      (a ++ b).dropWhile p = b.dropWhile p := by
  intro a
  induction a with
  | nil => simp
  | cons c cs ih =>
      intro b h
      have hc : p c = true := h c (by simp)
      obtain ⟨h1, h2⟩ := ih b (fun x hx => h x (by simp [hx]))
      constructor
      · simp [List.takeWhile_cons, hc, h1]
      · simp [List.dropWhile_cons, hc, h2]

/-- A digit is not one of the separator-relevant characters. -/
theorem isDigit_ne {c : Char} (h : c.isDigit = true) :
    c ≠ '-' ∧ c ≠ '.' ∧ c ≠ '\x7b' ∧ c ≠ '[' ∧ c ≠ '"' ∧
      isJsonWs c = false := by
  rw [Char.isDigit] at h
  simp only [decide_eq_true_eq, Bool.and_eq_true] at h
  refine ⟨?_, ?_, ?_, ?_, ?_, ?_⟩ <;> first
    | (intro hc; subst hc; revert h; decide)
    | (rw [isJsonWs]; simp only [decide_eq_false_iff_not]
       push_neg
       refine ⟨?_, ?_, ?_, ?_⟩ <;> (intro hc; subst hc; revert h; decide))

/-- The round-trip for serialized integers. -/
theorem parseNumberFrom_intChars (n : Int) (rest : List Char)
    (h : NumSep rest) :
    parseNumberFrom (intChars n ++ rest) = some (.int n, rest) := by
  have hdig := natChars_all_digit n.natAbs
  have hne := natChars_ne_nil n.natAbs
  obtain ⟨d, ds, hd⟩ : ∃ d ds, natChars n.natAbs = d :: ds := by
    cases hx : natChars n.natAbs with
    | nil => exact absurd hx hne
    | cons a b => exact ⟨a, b, rfl⟩
  have hdd : d.isDigit = true := hdig d (by rw [hd]; simp)
  have hdne : d ≠ '-' := (isDigit_ne hdd).1
  have htk := (@takeWhile_append_all Char.isDigit
    (natChars n.natAbs) rest hdig).1
  have hdw := (@takeWhile_append_all Char.isDigit
    (natChars n.natAbs) rest hdig).2
  have hrest_tk : rest.takeWhile Char.isDigit = [] := by
    cases rest with
    | nil => rfl
    | cons c cr => simp [List.takeWhile_cons, h.1]
  have hrest_dw : rest.dropWhile Char.isDigit = rest := by
    cases rest with
    | nil => rfl
    | cons c cr => simp [List.dropWhile_cons, h.1]
  have hds_ne : (natChars n.natAbs).isEmpty = false := by
    simp [List.isEmpty_iff, hne]
  have hfr : rest.head? ≠ some '.' := by
    cases rest with
    | nil => simp
    | cons c cr => simp [h.2.1]
  have he1 : rest.head? ≠ some 'e' := by
    cases rest with
    | nil => simp
    | cons c cr => simp [h.2.2.1]
  have he2 : rest.head? ≠ some 'E' := by
    cases rest with
    | nil => simp
    | cons c cr => simp [h.2.2.2]
  rcases Int.lt_or_le n 0 with hneg | hpos
  · have habs : intChars n = '-' :: natChars n.natAbs := by
      unfold intChars
      rw [if_pos hneg]
    rw [habs]
    simp only [parseNumberFrom, List.cons_append, List.head?_cons,
      Option.some.injEq, List.tail_cons, eq_self_iff_true, if_true]
    rw [htk, hrest_tk, List.append_nil, hdw, hrest_dw]
    rw [if_neg (show ¬((natChars n.natAbs).isEmpty = true) from by
      simp [hds_ne])]
    rw [if_neg (show ¬(rest.head? = some '.' ∧
        (rest.tail.takeWhile Char.isDigit).isEmpty = true) from
      fun hx => hfr hx.1)]
    simp only [if_neg hfr]
    rw [if_neg (show ¬(rest.head? = some 'e' ∨ rest.head? = some 'E') from by
      simp [he1, he2])]
    simp only [List.isEmpty_nil, if_true]
    rw [digitsVal_natChars]
    have hval : -(n.natAbs : Int) = n := by omega
    rw [hval]
  · have hheadne : (natChars n.natAbs ++ rest).head? ≠ some '-' := by
      rw [hd]
      simp [hdne]
    have habs : intChars n = natChars n.natAbs := by
      unfold intChars
      rw [if_neg (by omega)]
    rw [habs]
    simp only [parseNumberFrom]
    simp only [if_neg hheadne]
    rw [htk, hrest_tk, List.append_nil, hdw, hrest_dw]
    rw [if_neg (show ¬((natChars n.natAbs).isEmpty = true) from by
      simp [hds_ne])]
    rw [if_neg (show ¬(rest.head? = some '.' ∧
        (rest.tail.takeWhile Char.isDigit).isEmpty = true) from
      fun hx => hfr hx.1)]
    simp only [if_neg hfr]
    rw [if_neg (show ¬(rest.head? = some 'e' ∨ rest.head? = some 'E') from by
      simp [he1, he2])]
    simp only [List.isEmpty_nil, if_true]
    rw [digitsVal_natChars]
    have hval : (n.natAbs : Int) = n := by omega
    rw [hval]

/-- The round-trip for serialized (safe) string bodies. -/
theorem parseStringBody_safe :
    ∀ (l rest : List Char), (∀ c ∈ l, goodChar c = true) →
      parseStringBody (l ++ '"' :: rest) = some (l, rest) := by
  intro l
  induction l with
  | nil =>
      intro rest _
      rw [List.nil_append]
      unfold parseStringBody
      rw [if_pos rfl]
  | cons c cs ih =>
      intro rest h
      have hc := h c (by simp)
      unfold goodChar at hc
      simp only [decide_eq_true_eq, Bool.and_eq_true, decide_eq_true_eq,
        ne_eq] at hc
      rw [List.cons_append]
      unfold parseStringBody
      rw [if_neg (by tauto), if_neg (by tauto), if_neg (by omega)]
      rw [ih rest (fun x hx => h x (by simp [hx]))]
      rfl

/-! ### Claim C7, part 2 — structural helpers for the round-trip -/

theorem string_mk_data (s : String) : String.mk s.data = s := rfl

theorem isPrefixOf_cons_ne {a b : Char} (h : a ≠ b) (as bs : List Char) :
    (a :: as).isPrefixOf (b :: bs) = false := by
  simp [List.isPrefixOf, h]

theorem skipWs_cons {c : Char} (h : isJsonWs c = false) (l : List Char) :
    skipWs (c :: l) = c :: l := by
  simp [skipWs, List.dropWhile_cons, h]

/-- A digit is not one of the keyword/terminator characters. -/
theorem isDigit_facts {c : Char} (h : c.isDigit = true) :
    c ≠ 't' ∧ c ≠ 'f' ∧ c ≠ 'n' ∧ c ≠ ']' ∧ c ≠ '\x7d' ∧ c ≠ ':' ∧
      c ≠ ',' := by
  rw [Char.isDigit] at h
  simp only [decide_eq_true_eq, Bool.and_eq_true] at h
  refine ⟨?_, ?_, ?_, ?_, ?_, ?_, ?_⟩ <;>
    (intro hc; subst hc; revert h; decide)

theorem Safe_str_eq (s : String) : Safe (.str s) = SafeStr s := by
  unfold Safe
  rfl

theorem Safe_list_eq (xs : List PyVal) : Safe (.list xs) = SafeList xs := by
  unfold Safe
  rfl

theorem Safe_dict_eq (kvs : List (String × PyVal)) :
    Safe (.dict kvs) = SafeDict kvs := by
  unfold Safe
  rfl

theorem safeStr_good {s : String} (h : SafeStr s = true) :
    ∀ c ∈ s.data, goodChar c = true := by
  unfold SafeStr at h
  simpa [List.all_eq_true] using h

theorem safeList_cons {x : PyVal} {xs : List PyVal}
    (h : SafeList (x :: xs) = true) :
    Safe x = true ∧ SafeList xs = true := by
  unfold SafeList at h
  simpa [Bool.and_eq_true] using h

theorem safeDict_cons {k : String} {v : PyVal} {kvs : List (String × PyVal)}
    (h : SafeDict ((k, v) :: kvs) = true) :
    SafeStr k = true ∧ Safe v = true ∧ keyNotIn k kvs = true ∧
      SafeDict kvs = true := by
  unfold SafeDict at h
  simpa [Bool.and_eq_true, and_assoc] using h

theorem keyNotIn_iff {k : String} {kvs : List (String × PyVal)} :
    keyNotIn k kvs = true ↔ ∀ p ∈ kvs, p.1 ≠ k := by
  unfold keyNotIn
  simp [List.any_eq_true]

theorem dictSet_append {k : String} {v : PyVal} :
    ∀ acc : List (String × PyVal), keyNotIn k acc = true →
      dictSet acc k v = acc ++ [(k, v)] := by
  intro acc
  induction acc with
  | nil => intro _; rfl
  | cons p ps ih =>
      intro h
      obtain ⟨k0, v0⟩ := p
      rw [keyNotIn_iff] at h
      have hne : k0 ≠ k := h (k0, v0) (by simp)
      show dictSet ((k0, v0) :: ps) k v = _
      unfold dictSet
      rw [if_neg hne, ih (keyNotIn_iff.mpr (fun q hq => h q (by simp [hq])))]
      simp

theorem numSep_sep {c : Char} (hc : c = ',' ∨ c = ']' ∨ c = '\x7d')
    (l : List Char) : NumSep (c :: l) := by
  unfold NumSep
  rcases hc with rfl | rfl | rfl <;>
    exact ⟨by decide, by decide, by decide, by decide⟩

theorem sepFor_sep (v : PyVal) {c : Char}
    (hc : c = ',' ∨ c = ']' ∨ c = '\x7d') (l : List Char) :
    SepFor v (c :: l) := by
  cases v <;> first
    | exact numSep_sep hc l
    | (unfold SepFor; exact trivial)

theorem pfuel_pos (v : PyVal) : 1 ≤ pfuel v := by
  cases v <;> (unfold pfuel; omega)

theorem pfuel_list_eq (xs : List PyVal) :
    pfuel (.list xs) = 1 + pfuelList xs := by
  unfold pfuel
  rfl

theorem pfuel_dict_eq (kvs : List (String × PyVal)) :
    pfuel (.dict kvs) = 1 + pfuelDict kvs := by
  unfold pfuel
  rfl

theorem pfuelList_cons (x : PyVal) (xs : List PyVal) :
    pfuelList (x :: xs) = 1 + max (pfuel x) (pfuelList xs) := by
  conv_lhs => unfold pfuelList

theorem pfuelDict_cons (k : String) (v : PyVal)
    (kvs : List (String × PyVal)) :
    pfuelDict ((k, v) :: kvs) = 1 + max (pfuel v) (pfuelDict kvs) := by
  conv_lhs => unfold pfuelDict

theorem dump_int_eq (n : Int) : dumpChars (.int n) = intChars n := by
  unfold dumpChars
  rfl

theorem dump_str_eq (s : String) :
    dumpChars (.str s) = '"' :: s.data ++ ['"'] := by
  unfold dumpChars
  rfl

theorem dump_list_eq (xs : List PyVal) :
    dumpChars (.list xs) = '[' :: dumpElemsChars xs ++ [']'] := by
  unfold dumpChars
  rfl

theorem dump_dict_eq (kvs : List (String × PyVal)) :
    dumpChars (.dict kvs) = '\x7b' :: dumpMembersChars kvs ++ ['\x7d'] := by
  unfold dumpChars
  rfl

/-- A safe value's serialization starts with a character that is not
whitespace and not a closing bracket. -/
theorem dump_head (v : PyVal) (hs : Safe v = true) :
    ∃ c cs, dumpChars v = c :: cs ∧ isJsonWs c = false ∧
      c ≠ ']' ∧ c ≠ '\x7d' := by
  cases v with
  | none =>
      exact ⟨'n', ['u', 'l', 'l'], by unfold dumpChars nullChars; rfl,
        by decide, by decide, by decide⟩
  | bool b =>
      cases b with
      | true =>
          exact ⟨'t', ['r', 'u', 'e'], by unfold dumpChars trueChars; rfl,
            by decide, by decide, by decide⟩
      | false =>
          exact ⟨'f', ['a', 'l', 's', 'e'], by unfold dumpChars falseChars; rfl,
            by decide, by decide, by decide⟩
  | int n =>
      rw [dump_int_eq]
      rcases Int.lt_or_le n 0 with hneg | hpos
      · refine ⟨'-', natChars n.natAbs, ?_, by decide, by decide, by decide⟩
        unfold intChars
        rw [if_pos hneg]
      · obtain ⟨d, ds, hd⟩ : ∃ d ds, natChars n.natAbs = d :: ds := by
          cases hx : natChars n.natAbs with
          | nil => exact absurd hx (natChars_ne_nil n.natAbs)
          | cons a b => exact ⟨a, b, rfl⟩
        have hdd : d.isDigit = true :=
          natChars_all_digit n.natAbs d (by rw [hd]; simp)
        refine ⟨d, ds, ?_, (isDigit_ne hdd).2.2.2.2.2,
          (isDigit_facts hdd).2.2.2.1, (isDigit_facts hdd).2.2.2.2.1⟩
        unfold intChars
        rw [if_neg (by omega), hd]
  | floatLit s =>
      exact absurd hs (by unfold Safe; simp)
  | str s =>
      exact ⟨'"', s.data ++ ['"'], by rw [dump_str_eq]; simp,
        by decide, by decide, by decide⟩
  | list xs =>
      exact ⟨'[', dumpElemsChars xs ++ [']'], by rw [dump_list_eq]; simp,
        by decide, by decide, by decide⟩
  | dict kvs =>
      exact ⟨'\x7b', dumpMembersChars kvs ++ ['\x7d'], by rw [dump_dict_eq]; simp,
        by decide, by decide, by decide⟩

theorem rt_none : RT .none := by
  intro _ fuel hf rest _
  obtain ⟨f, rfl⟩ : ∃ f, fuel = f + 1 :=
    ⟨fuel - 1, by have := pfuel_pos .none; omega⟩
  have hd : dumpChars PyVal.none = nullChars := by
    unfold dumpChars nullChars
    rfl
  rw [hd]
  unfold parseVal
  simp [nullChars, List.isPrefixOf]

theorem rt_bool (b : Bool) : RT (.bool b) := by
  intro _ fuel hf rest _
  obtain ⟨f, rfl⟩ : ∃ f, fuel = f + 1 :=
    ⟨fuel - 1, by have := pfuel_pos (.bool b); omega⟩
  cases b with
  | true =>
      have hd : dumpChars (.bool true) = trueChars := by
        unfold dumpChars trueChars
        rfl
      rw [hd]
      unfold parseVal
      simp [trueChars, falseChars, nullChars, List.isPrefixOf]
  | false =>
      have hd : dumpChars (.bool false) = falseChars := by
        unfold dumpChars falseChars
        rfl
      rw [hd]
      unfold parseVal
      simp [trueChars, falseChars, nullChars, List.isPrefixOf]

theorem keyword_not_prefix {c0 : Char} (ht : c0 ≠ 't') (hf : c0 ≠ 'f')
    (hn : c0 ≠ 'n') (l : List Char) :
    trueChars.isPrefixOf (c0 :: l) = false ∧
      falseChars.isPrefixOf (c0 :: l) = false ∧
      nullChars.isPrefixOf (c0 :: l) = false := by
  refine ⟨?_, ?_, ?_⟩ <;>
    simp [trueChars, falseChars, nullChars, List.isPrefixOf,
      Ne.symm ht, Ne.symm hf, Ne.symm hn]

theorem rt_int (n : Int) : RT (.int n) := by
  intro _ fuel hf rest hsep
  obtain ⟨f, rfl⟩ : ∃ f, fuel = f + 1 :=
    ⟨fuel - 1, by have := pfuel_pos (.int n); omega⟩
  rw [dump_int_eq]
  obtain ⟨c0, cs, hc0, hfacts⟩ :
      ∃ c0 cs, intChars n = c0 :: cs ∧ (c0 = '-' ∨ c0.isDigit = true) := by
    unfold intChars
    by_cases h : n < 0
    · rw [if_pos h]
      exact ⟨'-', natChars n.natAbs, rfl, Or.inl rfl⟩
    · rw [if_neg h]
      obtain ⟨d, ds, hd⟩ : ∃ d ds, natChars n.natAbs = d :: ds := by
        cases hx : natChars n.natAbs with
        | nil => exact absurd hx (natChars_ne_nil n.natAbs)
        | cons a b => exact ⟨a, b, rfl⟩
      exact ⟨d, ds, hd,
        Or.inr (natChars_all_digit n.natAbs d (by rw [hd]; simp))⟩
  have hbrace : c0 ≠ '\x7b' := by
    rcases hfacts with rfl | hd
    · decide
    · exact (isDigit_ne hd).2.2.1
  have hbrack : c0 ≠ '[' := by
    rcases hfacts with rfl | hd
    · decide
    · exact (isDigit_ne hd).2.2.2.1
  have hquote : c0 ≠ '"' := by
    rcases hfacts with rfl | hd
    · decide
    · exact (isDigit_ne hd).2.2.2.2.1
  have ht : c0 ≠ 't' := by
    rcases hfacts with rfl | hd
    · decide
    · exact (isDigit_facts hd).1
  have hfc : c0 ≠ 'f' := by
    rcases hfacts with rfl | hd
    · decide
    · exact (isDigit_facts hd).2.1
  have hnc : c0 ≠ 'n' := by
    rcases hfacts with rfl | hd
    · decide
    · exact (isDigit_facts hd).2.2.1
  obtain ⟨hkt, hkf, hkn⟩ := keyword_not_prefix ht hfc hnc (cs ++ rest)
  rw [hc0, List.cons_append]
  unfold parseVal
  simp only []
  rw [if_neg hbrace, if_neg hbrack, if_neg hquote]
  rw [if_neg (by simp [hkt]), if_neg (by simp [hkf]), if_neg (by simp [hkn])]
  rw [← List.cons_append, ← hc0]
  exact parseNumberFrom_intChars n rest hsep

theorem rt_float (s : String) : RT (.floatLit s) := by
  intro hs
  exact absurd hs (by unfold Safe; simp)

theorem rt_str (s : String) : RT (.str s) := by
  intro hs fuel hf rest _
  obtain ⟨f, rfl⟩ : ∃ f, fuel = f + 1 :=
    ⟨fuel - 1, by have := pfuel_pos (.str s); omega⟩
  rw [Safe_str_eq] at hs
  have hgood := safeStr_good hs
  rw [dump_str_eq]
  have hassoc : ('"' :: s.data ++ ['"']) ++ rest =
      '"' :: (s.data ++ '"' :: rest) := by simp
  rw [hassoc]
  unfold parseVal
  simp only []
  rw [if_neg (by decide), if_neg (by decide)]
  simp only [if_true]
  rw [parseStringBody_safe s.data rest hgood]
  simp [string_mk_data]

/-- Round-trip through the element loop of the array parser: the
accumulator collects the serialized elements in order. -/
theorem parseElems_dump :
    ∀ (ys : List PyVal) (y : PyVal), RT y → (∀ z ∈ ys, RT z) →
      Safe y = true → SafeList ys = true →
      ∀ fuel, 1 + max (pfuel y) (pfuelList ys) ≤ fuel →
      ∀ (acc : List PyVal) (rest : List Char),
        parseElems fuel acc
          (dumpChars y ++ (dumpElemsRest ys ++ ']' :: rest)) =
        some (acc ++ y :: ys, rest) := by
  intro ys
  induction ys with
  | nil =>
      intro y hy _ hsy _ fuel hfuel acc rest
      obtain ⟨f, rfl⟩ : ∃ f, fuel = f + 1 := ⟨fuel - 1, by omega⟩
      have hrest0 : dumpElemsRest ([] : List PyVal) = [] := by
        unfold dumpElemsRest
        rfl
      rw [hrest0, List.nil_append]
      unfold parseElems
      have hfy : pfuel y ≤ f := by
        have := Nat.le_max_left (pfuel y) (pfuelList ([] : List PyVal))
        omega
      rw [hy hsy f hfy (']' :: rest) (sepFor_sep y (Or.inr (Or.inl rfl)) rest)]
      simp only []
      rw [skipWs_cons (by decide)]
      simp only []
      rw [if_neg (by decide)]
      simp
  | cons z zs ih =>
      intro y hy hmem hsy hslist fuel hfuel acc rest
      obtain ⟨f, rfl⟩ : ∃ f, fuel = f + 1 := ⟨fuel - 1, by omega⟩
      obtain ⟨hsz, hszs⟩ := safeList_cons hslist
      have hrest1 : dumpElemsRest (z :: zs) =
          ',' :: dumpChars z ++ dumpElemsRest zs := by
        conv_lhs => unfold dumpElemsRest
      rw [hrest1]
      have hassoc : dumpChars y ++
          ((',' :: dumpChars z ++ dumpElemsRest zs) ++ ']' :: rest) =
          dumpChars y ++
            (',' :: (dumpChars z ++ (dumpElemsRest zs ++ ']' :: rest))) := by
        simp
      rw [hassoc]
      unfold parseElems
      have hfy : pfuel y ≤ f := by
        have := Nat.le_max_left (pfuel y) (pfuelList (z :: zs))
        omega
      rw [hy hsy f hfy
        (',' :: (dumpChars z ++ (dumpElemsRest zs ++ ']' :: rest)))
        (sepFor_sep y (Or.inl rfl) _)]
      simp only []
      rw [skipWs_cons (by decide)]
      simp only []
      simp only [if_true]
      obtain ⟨c2, cs2, hc2, hws2, _, _⟩ := dump_head z hsz
      rw [hc2, List.cons_append, skipWs_cons hws2, ← List.cons_append, ← hc2]
      have hfz : 1 + max (pfuel z) (pfuelList zs) ≤ f := by
        rw [pfuelList_cons] at hfuel
        omega
      rw [ih z (hmem z (by simp)) (fun w hw => hmem w (by simp [hw]))
        hsz hszs f hfz (acc ++ [y]) rest]
      simp

theorem rt_list (xs : List PyVal) (ihm : ∀ x ∈ xs, RT x) : RT (.list xs) := by
  intro hs fuel hf rest _
  obtain ⟨f, rfl⟩ : ∃ f, fuel = f + 1 :=
    ⟨fuel - 1, by have := pfuel_pos (.list xs); omega⟩
  rw [Safe_list_eq] at hs
  rw [dump_list_eq]
  have hassoc : ('[' :: dumpElemsChars xs ++ [']']) ++ rest =
      '[' :: (dumpElemsChars xs ++ ']' :: rest) := by simp
  rw [hassoc]
  unfold parseVal
  simp only []
  rw [if_neg (by decide)]
  simp only [if_true]
  cases xs with
  | nil =>
      have h0 : dumpElemsChars ([] : List PyVal) = [] := by
        unfold dumpElemsChars
        rfl
      rw [h0, List.nil_append, skipWs_cons (by decide)]
      simp
  | cons x xs' =>
      obtain ⟨hsx, hsxs⟩ := safeList_cons hs
      have h1 : dumpElemsChars (x :: xs') =
          dumpChars x ++ dumpElemsRest xs' := by
        conv_lhs => unfold dumpElemsChars
      rw [h1]
      have hassoc2 : (dumpChars x ++ dumpElemsRest xs') ++ ']' :: rest =
          dumpChars x ++ (dumpElemsRest xs' ++ ']' :: rest) := by simp
      rw [hassoc2]
      obtain ⟨c1, cs1, hc1, hws1, hne1, _⟩ := dump_head x hsx
      rw [hc1, List.cons_append, skipWs_cons hws1]
      simp only []
      rw [if_neg hne1]
      rw [← List.cons_append, ← hc1]
      have hfuel2 : 1 + max (pfuel x) (pfuelList xs') ≤ f := by
        rw [pfuel_list_eq, pfuelList_cons] at hf
        omega
      rw [parseElems_dump xs' x (ihm x (by simp))
        (fun w hw => ihm w (by simp [hw])) hsx hsxs f hfuel2 [] rest]
      simp

theorem keyNotIn_append {x : String} {a b : List (String × PyVal)}
    (ha : keyNotIn x a = true) (hb : keyNotIn x b = true) :
    keyNotIn x (a ++ b) = true := by
  rw [keyNotIn_iff] at *
  intro p hp
  rcases List.mem_append.mp hp with h | h
  · exact ha p h
  · exact hb p h

/-- Round-trip through the member loop of the object parser: with fresh
keys, the Python-dict accumulator collects the members in order. -/
theorem parseMembers_dump :
    ∀ (ps : List (String × PyVal)) (k : String) (v : PyVal),
      RT v → (∀ p ∈ ps, RT p.2) →
      SafeDict ((k, v) :: ps) = true →
      ∀ fuel, 1 + max (pfuel v) (pfuelDict ps) ≤ fuel →
      ∀ (acc : List (String × PyVal)) (rest : List Char),
        (∀ p ∈ (k, v) :: ps, keyNotIn p.1 acc = true) →
        parseMembers fuel acc
          ('"' :: (k.data ++ '"' :: ':' ::
            (dumpChars v ++ (dumpMembersRest ps ++ '\x7d' :: rest)))) =
        some (acc ++ (k, v) :: ps, rest) := by
  intro ps
  induction ps with
  | nil =>
      intro k v hv _ hsd fuel hfuel acc rest hacc
      obtain ⟨f, rfl⟩ : ∃ f, fuel = f + 1 := ⟨fuel - 1, by omega⟩
      obtain ⟨hkk, hsv, _, _⟩ := safeDict_cons hsd
      have hrest0 : dumpMembersRest ([] : List (String × PyVal)) = [] := by
        unfold dumpMembersRest
        rfl
      rw [hrest0, List.nil_append]
      unfold parseMembers
      simp only []
      first
        | simp only [if_true]
        | rw [if_pos rfl]
      rw [parseStringBody_safe k.data _ (safeStr_good hkk)]
      simp only []
      rw [skipWs_cons (by decide)]
      simp only []
      first
        | simp only [if_true]
        | rw [if_pos rfl]
      obtain ⟨c1, cs1, hc1, hws1, _, _⟩ := dump_head v hsv
      rw [hc1, List.cons_append, skipWs_cons hws1, ← List.cons_append, ← hc1]
      have hfv : pfuel v ≤ f := by omega
      rw [hv hsv f hfv ('\x7d' :: rest)
        (sepFor_sep v (Or.inr (Or.inr rfl)) rest)]
      simp only []
      rw [skipWs_cons (by decide)]
      simp only []
      rw [if_neg (by decide)]
      first
        | simp only [if_true]
        | rw [if_pos rfl]
      rw [string_mk_data, dictSet_append acc (hacc (k, v) (by simp))]
  | cons q qs ih =>
      intro k v hv hmem hsd fuel hfuel acc rest hacc
      obtain ⟨f, rfl⟩ : ∃ f, fuel = f + 1 := ⟨fuel - 1, by omega⟩
      obtain ⟨hkk, hsv, hknotin, hsqs⟩ := safeDict_cons hsd
      obtain ⟨k2, v2⟩ := q
      have hrest1 : dumpMembersRest ((k2, v2) :: qs) =
          ',' :: '"' :: k2.data ++ '"' :: ':' :: dumpChars v2 ++
            dumpMembersRest qs := by
        conv_lhs => unfold dumpMembersRest
      rw [hrest1]
      have hassoc : (',' :: '"' :: k2.data ++ '"' :: ':' :: dumpChars v2 ++
            dumpMembersRest qs) ++ '\x7d' :: rest =
          ',' :: ('"' :: (k2.data ++ '"' :: ':' ::
            (dumpChars v2 ++ (dumpMembersRest qs ++ '\x7d' :: rest)))) := by
        simp
      rw [hassoc]
      unfold parseMembers
      simp only []
      first
        | simp only [if_true]
        | rw [if_pos rfl]
      rw [parseStringBody_safe k.data _ (safeStr_good hkk)]
      simp only []
      rw [skipWs_cons (by decide)]
      simp only []
      first
        | simp only [if_true]
        | rw [if_pos rfl]
      obtain ⟨c1, cs1, hc1, hws1, _, _⟩ := dump_head v hsv
      rw [hc1, List.cons_append, skipWs_cons hws1, ← List.cons_append, ← hc1]
      have hfv : pfuel v ≤ f := by omega
      rw [hv hsv f hfv
        (',' :: ('"' :: (k2.data ++ '"' :: ':' ::
          (dumpChars v2 ++ (dumpMembersRest qs ++ '\x7d' :: rest)))))
        (sepFor_sep v (Or.inl rfl) _)]
      simp only []
      rw [skipWs_cons (by decide)]
      simp only []
      first
        | simp only [if_true]
        | rw [if_pos rfl]
      rw [skipWs_cons (by decide)]
      rw [string_mk_data, dictSet_append acc (hacc (k, v) (by simp))]
      have hacc2 : ∀ p ∈ (k2, v2) :: qs,
          keyNotIn p.1 (acc ++ [(k, v)]) = true := by
        intro p hp
        refine keyNotIn_append (hacc p (List.mem_cons_of_mem _ hp)) ?_
        rw [keyNotIn_iff]
        intro r hr
        simp only [List.mem_singleton] at hr
        subst hr
        exact fun hx => (keyNotIn_iff.mp hknotin p hp) hx.symm
      have hfq : 1 + max (pfuel v2) (pfuelDict qs) ≤ f := by
        rw [pfuelDict_cons] at hfuel
        omega
      rw [ih k2 v2 (show RT v2 from hmem (k2, v2) (by simp))
        (fun w hw => hmem w (by simp [hw])) hsqs f hfq
        (acc ++ [(k, v)]) rest hacc2]
      simp

theorem rt_dict (kvs : List (String × PyVal)) (ihm : ∀ p ∈ kvs, RT p.2) :
    RT (.dict kvs) := by
  intro hs fuel hf rest _
  obtain ⟨f, rfl⟩ : ∃ f, fuel = f + 1 :=
    ⟨fuel - 1, by have := pfuel_pos (.dict kvs); omega⟩
  rw [Safe_dict_eq] at hs
  rw [dump_dict_eq]
  have hassoc : ('\x7b' :: dumpMembersChars kvs ++ ['\x7d']) ++ rest =
      '\x7b' :: (dumpMembersChars kvs ++ '\x7d' :: rest) := by simp
  rw [hassoc]
  unfold parseVal
  simp only []
  first
    | simp only [if_true]
    | rw [if_pos rfl]
  cases kvs with
  | nil =>
      have h0 : dumpMembersChars ([] : List (String × PyVal)) = [] := by
        unfold dumpMembersChars
        rfl
      rw [h0, List.nil_append, skipWs_cons (by decide)]
      simp
  | cons q qs =>
      obtain ⟨k, v⟩ := q
      have h1 : dumpMembersChars ((k, v) :: qs) =
          '"' :: k.data ++ '"' :: ':' :: dumpChars v ++
            dumpMembersRest qs := by
        conv_lhs => unfold dumpMembersChars
      rw [h1]
      have hassoc2 : ('"' :: k.data ++ '"' :: ':' :: dumpChars v ++
            dumpMembersRest qs) ++ '\x7d' :: rest =
          '"' :: (k.data ++ '"' :: ':' ::
            (dumpChars v ++ (dumpMembersRest qs ++ '\x7d' :: rest))) := by
        simp
      rw [hassoc2, skipWs_cons (by decide)]
      simp only []
      rw [if_neg (by decide)]
      have hfuel2 : 1 + max (pfuel v) (pfuelDict qs) ≤ f := by
        rw [pfuel_dict_eq, pfuelDict_cons] at hf
        omega
      rw [parseMembers_dump qs k v (show RT v from ihm (k, v) (by simp))
        (fun w hw => ihm w (by simp [hw])) hs f hfuel2 [] rest
        (by
          intro p hp
          rw [keyNotIn_iff]
          intro r hr
          simp at hr)]
      simp

/-- The parse/serialize round-trip for every safe value. -/
theorem parseVal_dump : ∀ v, RT v :=
  PyVal.inductionOn rt_none rt_bool rt_int rt_float rt_str rt_list rt_dict

/-! ### Claim C7, part 3 — junk ahead of the object defeats json.loads -/

theorem eq_cons_of_head {l : List Char} {a : Char} (h : l.head? = some a) :
    l = a :: l.tail := by
  cases l with
  | nil => simp at h
  | cons b t =>
      simp at h
      simp [h]

/-- A number parse cannot start at a non-digit other than a minus sign. -/
theorem parseNumberFrom_junk {c0 : Char} (t : List Char)
    (hd : c0.isDigit = false) (hm : c0 ≠ '-') :
    parseNumberFrom (c0 :: t) = Option.none := by
  simp [parseNumberFrom, List.takeWhile_cons, hd, hm]

theorem isPrefixOf_append_drop {a l : List Char} (h : a.isPrefixOf l = true) :
    l = a ++ l.drop a.length := by
  rw [List.isPrefixOf_iff_prefix] at h
  obtain ⟨t, rfl⟩ := h
  simp

/-- A value parse that does not start at a brace, bracket or quote
consumes no opening brace. -/
theorem parseVal_junk {fuel : Nat} {c0 : Char} {t r : List Char} {v : PyVal}
    (h1 : c0 ≠ '\x7b') (h2 : c0 ≠ '[') (h3 : c0 ≠ '"')
    (hd : c0.isDigit = false) (hm : c0 ≠ '-')
    (h : parseVal fuel (c0 :: t) = some (v, r)) : Consumed (c0 :: t) r := by
  cases fuel with
  | zero =>
      unfold parseVal at h
      exact Option.noConfusion h
  | succ f =>
      unfold parseVal at h
      simp only [] at h
      rw [if_neg h1, if_neg h2, if_neg h3] at h
      by_cases ht : trueChars.isPrefixOf (c0 :: t) = true
      · rw [if_pos ht] at h
        simp only [Option.some.injEq, Prod.mk.injEq] at h
        obtain ⟨-, hr⟩ := h
        subst hr
        refine ⟨trueChars, ?_, by decide⟩
        have hlen : trueChars.length = 4 := rfl
        have hx := isPrefixOf_append_drop ht
        rw [hlen] at hx
        exact hx
      · rw [if_neg ht] at h
        by_cases hf : falseChars.isPrefixOf (c0 :: t) = true
        · rw [if_pos hf] at h
          simp only [Option.some.injEq, Prod.mk.injEq] at h
          obtain ⟨-, hr⟩ := h
          subst hr
          refine ⟨falseChars, ?_, by decide⟩
          have hlen : falseChars.length = 5 := rfl
          have hx := isPrefixOf_append_drop hf
          rw [hlen] at hx
          exact hx
        · rw [if_neg hf] at h
          by_cases hn : nullChars.isPrefixOf (c0 :: t) = true
          · rw [if_pos hn] at h
            simp only [Option.some.injEq, Prod.mk.injEq] at h
            obtain ⟨-, hr⟩ := h
            subst hr
            refine ⟨nullChars, ?_, by decide⟩
            have hlen : nullChars.length = 4 := rfl
            have hx := isPrefixOf_append_drop hn
            rw [hlen] at hx
            exact hx
          · rw [if_neg hn] at h
            rw [parseNumberFrom_junk t hd hm] at h
            exact Option.noConfusion h

/-- Sufficient fuel for parsing a serialization is supplied by its length
(auxiliary bound for the member lists). -/
theorem pfuelList_le_dump : ∀ xs : List PyVal,
    (∀ x ∈ xs, Safe x = true → pfuel x ≤ (dumpChars x).length + 1) →
    SafeList xs = true →
    pfuelList xs ≤ (dumpElemsChars xs).length + 2 := by
  intro xs
  induction xs with
  | nil =>
      intro _ _
      unfold pfuelList
      omega
  | cons x xs' ih =>
      intro ihm hs
      obtain ⟨hsx, hsxs⟩ := safeList_cons hs
      have h1 := ihm x (by simp) hsx
      have h2 := ih (fun w hw hsw => ihm w (by simp [hw]) hsw) hsxs
      rw [pfuelList_cons]
      have hdE : dumpElemsChars (x :: xs') =
          dumpChars x ++ dumpElemsRest xs' := by
        conv_lhs => unfold dumpElemsChars
      rw [hdE, List.length_append]
      cases xs' with
      | nil =>
          have e1 : pfuelList ([] : List PyVal) = 1 := by
            unfold pfuelList
            rfl
          have e2 : dumpElemsRest ([] : List PyVal) = [] := by
            unfold dumpElemsRest
            rfl
          rw [e1, e2]
          simp only [List.length_nil]
          omega
      | cons y ys =>
          have e3 : dumpElemsRest (y :: ys) =
              ',' :: dumpChars y ++ dumpElemsRest ys := by
            conv_lhs => unfold dumpElemsRest
          have e4 : dumpElemsChars (y :: ys) =
              dumpChars y ++ dumpElemsRest ys := by
            conv_lhs => unfold dumpElemsChars
          rw [e3]
          rw [e4] at h2
          simp only [List.length_cons, List.length_append] at h2 ⊢
          omega

/-- See `pfuelList_le_dump`. -/
theorem pfuelDict_le_dump : ∀ kvs : List (String × PyVal),
    (∀ p ∈ kvs, Safe p.2 = true → pfuel p.2 ≤ (dumpChars p.2).length + 1) →
    SafeDict kvs = true →
    pfuelDict kvs ≤ (dumpMembersChars kvs).length + 2 := by
  intro kvs
  induction kvs with
  | nil =>
      intro _ _
      unfold pfuelDict
      omega
  | cons q qs ih =>
      intro ihm hs
      obtain ⟨k, v⟩ := q
      obtain ⟨-, hsv, -, hsqs⟩ := safeDict_cons hs
      have h1 : pfuel v ≤ (dumpChars v).length + 1 := ihm (k, v) (by simp) hsv
      have h2 := ih (fun w hw hsw => ihm w (by simp [hw]) hsw) hsqs
      rw [pfuelDict_cons]
      have hdM : dumpMembersChars ((k, v) :: qs) =
          '"' :: k.data ++ '"' :: ':' :: dumpChars v ++
            dumpMembersRest qs := by
        conv_lhs => unfold dumpMembersChars
      rw [hdM]
      simp only [List.length_cons, List.length_append]
      cases qs with
      | nil =>
          have e1 : pfuelDict ([] : List (String × PyVal)) = 1 := by
            unfold pfuelDict
            rfl
          have e2 : dumpMembersRest ([] : List (String × PyVal)) = [] := by
            unfold dumpMembersRest
            rfl
          rw [e1, e2]
          simp only [List.length_nil]
          omega
      | cons q2 qs2 =>
          obtain ⟨k2, v2⟩ := q2
          have e3 : dumpMembersRest ((k2, v2) :: qs2) =
              ',' :: '"' :: k2.data ++ '"' :: ':' :: dumpChars v2 ++
                dumpMembersRest qs2 := by
            conv_lhs => unfold dumpMembersRest
          have e4 : dumpMembersChars ((k2, v2) :: qs2) =
              '"' :: k2.data ++ '"' :: ':' :: dumpChars v2 ++
                dumpMembersRest qs2 := by
            conv_lhs => unfold dumpMembersChars
          rw [e3]
          rw [e4] at h2
          simp only [List.length_cons, List.length_append] at h2 ⊢
          omega

/-- The serialization length (plus one) is enough parser fuel. -/
theorem pfuel_le_dump : ∀ v, Safe v = true →
    pfuel v ≤ (dumpChars v).length + 1 := by
  refine PyVal.inductionOn ?_ ?_ ?_ ?_ ?_ ?_ ?_
  · intro _
    unfold pfuel
    omega
  · intro b _
    unfold pfuel
    omega
  · intro n _
    unfold pfuel
    omega
  · intro s _
    unfold pfuel
    omega
  · intro s _
    unfold pfuel
    omega
  · intro xs ihm hs
    rw [Safe_list_eq] at hs
    rw [pfuel_list_eq, dump_list_eq]
    have h2 := pfuelList_le_dump xs ihm hs
    simp only [List.length_cons, List.length_append, List.length_nil] at *
    omega
  · intro kvs ihm hs
    rw [Safe_dict_eq] at hs
    rw [pfuel_dict_eq, dump_dict_eq]
    have h2 := pfuelDict_le_dump kvs ihm hs
    simp only [List.length_cons, List.length_append, List.length_nil] at *
    omega

/-- `json.loads` on a serialized object plus a remainder: it succeeds
with the object exactly when the remainder is whitespace. -/
theorem jsonLoads_dump_append (kvs : List (String × PyVal))
    (hs : Safe (.dict kvs) = true) (q : List Char) :
    jsonLoads (dumpChars (.dict kvs) ++ q) =
      if (skipWs q).isEmpty then some (.dict kvs) else Option.none := by
  unfold jsonLoads
  have hshape : dumpChars (.dict kvs) ++ q =
      '\x7b' :: ((dumpMembersChars kvs ++ ['\x7d']) ++ q) := by
    rw [dump_dict_eq]
    simp
  rw [hshape, skipWs_cons (by decide), ← hshape]
  have hfuel : pfuel (.dict kvs) ≤ (dumpChars (.dict kvs) ++ q).length + 1 := by
    have := pfuel_le_dump _ hs
    simp only [List.length_append]
    omega
  rw [parseVal_dump (.dict kvs) hs _ hfuel q
    (by unfold SepFor; exact trivial)]

/-- `json.loads` fails when non-whitespace junk that does not open a
value precedes an opening brace. -/
theorem jsonLoads_junk {c0 : Char} (t rest2 : List Char)
    (hws : isJsonWs c0 = false)
    (h1 : c0 ≠ '\x7b') (h2 : c0 ≠ '[') (h3 : c0 ≠ '"')
    (hd : c0.isDigit = false) (hm : c0 ≠ '-')
    (hbrace : '\x7b' ∈ rest2) :
    jsonLoads ((c0 :: t) ++ rest2) = Option.none := by
  unfold jsonLoads
  rw [List.cons_append, skipWs_cons hws]
  cases hpv : parseVal ((c0 :: (t ++ rest2)).length + 1)
      (c0 :: (t ++ rest2)) with
  | none => rfl
  | some p =>
      obtain ⟨v, r⟩ := p
      obtain ⟨c, hc, hgood⟩ := parseVal_junk h1 h2 h3 hd hm hpv
      have hbr : '\x7b' ∈ r := by
        have hmem : '\x7b' ∈ c0 :: (t ++ rest2) := by
          simp [hbrace]
        rw [hc] at hmem
        rcases List.mem_append.mp hmem with hm | hm
        · exact absurd rfl (hgood _ hm)
        · exact hm
      have hne : skipWs r ≠ [] := by
        intro hnil
        unfold skipWs at hnil
        rw [List.dropWhile_eq_nil_iff] at hnil
        exact absurd (hnil '\x7b' hbr) (by decide)
      simp [List.isEmpty_iff, hne]

/-! ### Claim C7, part 4 — the text pipeline is transparent to the
serialization -/

theorem digit_extra {c : Char} (h : c.isDigit = true) :
    c ≠ '/' ∧ c ≠ '\x60' := by
  rw [Char.isDigit] at h
  simp only [decide_eq_true_eq, Bool.and_eq_true] at h
  constructor <;> (intro hc; subst hc; revert h; decide)

theorem goodChar_extra {c : Char} (h : goodChar c = true) :
    c ≠ '/' ∧ c ≠ '\x60' ∧ c ≠ '\x7b' ∧ c ≠ '\x7d' := by
  unfold goodChar at h
  simp only [decide_eq_true_eq, Bool.and_eq_true, ne_eq] at h
  exact ⟨h.2.2.2.2.2.1, h.2.2.2.2.2.2, h.2.2.2.1, h.2.2.2.2.1⟩

/-- No slash and no backtick anywhere in a safe serialization
(member-list part). -/
theorem dumpMembers_plain : ∀ kvs : List (String × PyVal),
    (∀ p ∈ kvs, Safe p.2 = true →
      ∀ c ∈ dumpChars p.2, c ≠ '/' ∧ c ≠ '\x60') →
    SafeDict kvs = true →
    (∀ c ∈ dumpMembersChars kvs, c ≠ '/' ∧ c ≠ '\x60') ∧
    (∀ c ∈ dumpMembersRest kvs, c ≠ '/' ∧ c ≠ '\x60') := by
  intro kvs
  induction kvs with
  | nil =>
      intro _ _
      constructor
      · intro c hc
        rw [show dumpMembersChars ([] : List (String × PyVal)) = [] from by
          unfold dumpMembersChars
          rfl] at hc
        exact absurd hc (by simp)
      · intro c hc
        rw [show dumpMembersRest ([] : List (String × PyVal)) = [] from by
          unfold dumpMembersRest
          rfl] at hc
        exact absurd hc (by simp)
  | cons q qs ih =>
      intro ihm hs
      obtain ⟨k, v⟩ := q
      obtain ⟨hkk, hsv, -, hsqs⟩ := safeDict_cons hs
      obtain ⟨ihC, ihR⟩ := ih (fun w hw => ihm w (by simp [hw])) hsqs
      have hv : ∀ c ∈ dumpChars v, c ≠ '/' ∧ c ≠ '\x60' :=
        ihm (k, v) (by simp) hsv
      have hk : ∀ c ∈ k.data, c ≠ '/' ∧ c ≠ '\x60' := by
        intro c hc
        have := goodChar_extra (safeStr_good hkk c hc)
        exact ⟨this.1, this.2.1⟩
      have hshapeC : dumpMembersChars ((k, v) :: qs) =
          '"' :: (k.data ++ '"' :: ':' ::
            (dumpChars v ++ dumpMembersRest qs)) := by
        conv_lhs => unfold dumpMembersChars
        simp
      have hshapeR : dumpMembersRest ((k, v) :: qs) =
          ',' :: '"' :: (k.data ++ '"' :: ':' ::
            (dumpChars v ++ dumpMembersRest qs)) := by
        conv_lhs => unfold dumpMembersRest
        simp
      constructor
      · intro c hc
        rw [hshapeC] at hc
        rcases List.mem_cons.mp hc with rfl | hc
        · exact ⟨by decide, by decide⟩
        rcases List.mem_append.mp hc with hc | hc
        · exact hk c hc
        rcases List.mem_cons.mp hc with rfl | hc
        · exact ⟨by decide, by decide⟩
        rcases List.mem_cons.mp hc with rfl | hc
        · exact ⟨by decide, by decide⟩
        rcases List.mem_append.mp hc with hc | hc
        · exact hv c hc
        · exact ihR c hc
      · intro c hc
        rw [hshapeR] at hc
        rcases List.mem_cons.mp hc with rfl | hc
        · exact ⟨by decide, by decide⟩
        rcases List.mem_cons.mp hc with rfl | hc
        · exact ⟨by decide, by decide⟩
        rcases List.mem_append.mp hc with hc | hc
        · exact hk c hc
        rcases List.mem_cons.mp hc with rfl | hc
        · exact ⟨by decide, by decide⟩
        rcases List.mem_cons.mp hc with rfl | hc
        · exact ⟨by decide, by decide⟩
        rcases List.mem_append.mp hc with hc | hc
        · exact hv c hc
        · exact ihR c hc

/-- See `dumpMembers_plain`: the element-list part. -/
theorem dumpElems_plain : ∀ xs : List PyVal,
    (∀ x ∈ xs, Safe x = true → ∀ c ∈ dumpChars x, c ≠ '/' ∧ c ≠ '\x60') →
    SafeList xs = true →
    (∀ c ∈ dumpElemsChars xs, c ≠ '/' ∧ c ≠ '\x60') ∧
    (∀ c ∈ dumpElemsRest xs, c ≠ '/' ∧ c ≠ '\x60') := by
  intro xs
  induction xs with
  | nil =>
      intro _ _
      constructor
      · intro c hc
        rw [show dumpElemsChars ([] : List PyVal) = [] from by
          unfold dumpElemsChars
          rfl] at hc
        exact absurd hc (by simp)
      · intro c hc
        rw [show dumpElemsRest ([] : List PyVal) = [] from by
          unfold dumpElemsRest
          rfl] at hc
        exact absurd hc (by simp)
  | cons x xs' ih =>
      intro ihm hs
      obtain ⟨hsx, hsxs⟩ := safeList_cons hs
      obtain ⟨ihC, ihR⟩ := ih (fun w hw => ihm w (by simp [hw])) hsxs
      have hx : ∀ c ∈ dumpChars x, c ≠ '/' ∧ c ≠ '\x60' :=
        ihm x (by simp) hsx
      constructor
      · intro c hc
        rw [show dumpElemsChars (x :: xs') =
            dumpChars x ++ dumpElemsRest xs' from by
          conv_lhs => unfold dumpElemsChars] at hc
        rcases List.mem_append.mp hc with hc | hc
        · exact hx c hc
        · exact ihR c hc
      · intro c hc
        rw [show dumpElemsRest (x :: xs') =
            ',' :: (dumpChars x ++ dumpElemsRest xs') from by
          conv_lhs => unfold dumpElemsRest
          simp] at hc
        rcases List.mem_cons.mp hc with rfl | hc
        · exact ⟨by decide, by decide⟩
        rcases List.mem_append.mp hc with hc | hc
        · exact hx c hc
        · exact ihR c hc

/-- No slash and no backtick anywhere in a safe serialization. -/
theorem dump_plain : ∀ v, Safe v = true →
    ∀ c ∈ dumpChars v, c ≠ '/' ∧ c ≠ '\x60' := by
  refine PyVal.inductionOn ?_ ?_ ?_ ?_ ?_ ?_ ?_
  · intro _ c hc
    rw [show dumpChars PyVal.none = nullChars from by
      unfold dumpChars nullChars
      rfl] at hc
    revert hc
    revert c
    decide
  · intro b _ c hc
    cases b
    · rw [show dumpChars (.bool false) = falseChars from by
        unfold dumpChars falseChars
        rfl] at hc
      revert hc
      revert c
      decide
    · rw [show dumpChars (.bool true) = trueChars from by
        unfold dumpChars trueChars
        rfl] at hc
      revert hc
      revert c
      decide
  · intro n _ c hc
    rw [dump_int_eq] at hc
    unfold intChars at hc
    have hdig : ∀ c ∈ natChars n.natAbs, c ≠ '/' ∧ c ≠ '\x60' :=
      fun c hc => digit_extra (natChars_all_digit _ c hc)
    split at hc
    · rcases List.mem_cons.mp hc with rfl | hc
      · exact ⟨by decide, by decide⟩
      · exact hdig c hc
    · exact hdig c hc
  · intro s hs
    exact absurd hs (by unfold Safe; simp)
  · intro s hs c hc
    rw [Safe_str_eq] at hs
    rw [dump_str_eq] at hc
    have hshape : ('"' :: s.data) ++ ['"'] =
        '"' :: (s.data ++ ['"']) := by simp
    rw [hshape] at hc
    rcases List.mem_cons.mp hc with rfl | hc
    · exact ⟨by decide, by decide⟩
    rcases List.mem_append.mp hc with hc | hc
    · have := goodChar_extra (safeStr_good hs c hc)
      exact ⟨this.1, this.2.1⟩
    · simp only [List.mem_singleton] at hc
      subst hc
      exact ⟨by decide, by decide⟩
  · intro xs ihm hs c hc
    rw [Safe_list_eq] at hs
    rw [dump_list_eq] at hc
    have hshape : ('[' :: dumpElemsChars xs) ++ [']'] =
        '[' :: (dumpElemsChars xs ++ [']']) := by simp
    rw [hshape] at hc
    rcases List.mem_cons.mp hc with rfl | hc
    · exact ⟨by decide, by decide⟩
    rcases List.mem_append.mp hc with hc | hc
    · exact (dumpElems_plain xs ihm hs).1 c hc
    · simp only [List.mem_singleton] at hc
      subst hc
      exact ⟨by decide, by decide⟩
  · intro kvs ihm hs c hc
    rw [Safe_dict_eq] at hs
    rw [dump_dict_eq] at hc
    have hshape : ('\x7b' :: dumpMembersChars kvs) ++ ['\x7d'] =
        '\x7b' :: (dumpMembersChars kvs ++ ['\x7d']) := by simp
    rw [hshape] at hc
    rcases List.mem_cons.mp hc with rfl | hc
    · exact ⟨by decide, by decide⟩
    rcases List.mem_append.mp hc with hc | hc
    · exact (dumpMembers_plain kvs ihm hs).1 c hc
    · simp only [List.mem_singleton] at hc
      subst hc
      exact ⟨by decide, by decide⟩

theorem removeFenceJson_append : ∀ a : List Char,
    (∀ c ∈ a, c ≠ '\x60') → ∀ b,
    removeFenceJson (a ++ b) = a ++ removeFenceJson b := by
  intro a
  induction a with
  | nil =>
      intro _ b
      simp
  | cons c cs ih =>
      intro ha b
      rw [List.cons_append]
      conv_lhs => unfold removeFenceJson
      have hpre : fenceJsonChars.isPrefixOf (c :: (cs ++ b)) = false := by
        unfold fenceJsonChars
        exact isPrefixOf_cons_ne (Ne.symm (ha c (by simp))) _ _
      rw [if_neg (by simp [hpre])]
      rw [ih (fun x hx => ha x (by simp [hx])) b]
      simp

theorem removeFence_append : ∀ a : List Char,
    (∀ c ∈ a, c ≠ '\x60') → ∀ b,
    removeFence (a ++ b) = a ++ removeFence b := by
  intro a
  induction a with
  | nil =>
      intro _ b
      simp
  | cons c cs ih =>
      intro ha b
      rw [List.cons_append]
      conv_lhs => unfold removeFence
      have hpre : fenceChars.isPrefixOf (c :: (cs ++ b)) = false := by
        unfold fenceChars
        exact isPrefixOf_cons_ne (Ne.symm (ha c (by simp))) _ _
      rw [if_neg (by simp [hpre])]
      rw [ih (fun x hx => ha x (by simp [hx])) b]
      simp

theorem removeLineComments_append : ∀ a : List Char,
    (∀ c ∈ a, c ≠ '/') → ∀ b,
    removeLineComments false (a ++ b) = a ++ removeLineComments false b := by
  intro a
  induction a with
  | nil =>
      intro _ b
      simp
  | cons c cs ih =>
      intro ha b
      rw [List.cons_append]
      conv_lhs => unfold removeLineComments
      rw [if_neg (fun hx => (ha c (by simp)) hx.1)]
      rw [ih (fun x hx => ha x (by simp [hx])) b]
      simp

theorem removeBlockComments_append : ∀ a : List Char,
    (∀ c ∈ a, c ≠ '/') → ∀ b,
    removeBlockComments (a ++ b) = a ++ removeBlockComments b := by
  intro a
  induction a with
  | nil =>
      intro _ b
      simp
  | cons c cs ih =>
      intro ha b
      rw [List.cons_append]
      conv_lhs => unfold removeBlockComments
      rw [if_neg (fun hx => (ha c (by simp)) hx.1)]
      rw [ih (fun x hx => ha x (by simp [hx])) b]
      simp

theorem dropWhile_append_cons {p : Char → Bool} {x : Char}
    (hpx : p x = false) :
    ∀ (a xs : List Char),
      (a ++ x :: xs).dropWhile p = a.dropWhile p ++ x :: xs := by
  intro a xs
  induction a with
  | nil => simp [List.dropWhile_cons, hpx]
  | cons c cs ih =>
      by_cases hc : p c
      · simp [List.dropWhile_cons, hc, ih]
      · simp [List.dropWhile_cons, hc]

theorem dropWhile_idem {p : Char → Bool} :
    ∀ l : List Char, (l.dropWhile p).dropWhile p = l.dropWhile p := by
  intro l
  induction l with
  | nil => rfl
  | cons c cs ih =>
      by_cases hc : p c
      · simp [List.dropWhile_cons, hc, ih]
      · simp [List.dropWhile_cons, hc]

theorem dropWhile_head_false {p : Char → Bool} :
    ∀ {l : List Char} {c : Char} {t : List Char},
      l.dropWhile p = c :: t → p c = false := by
  intro l
  induction l with
  | nil =>
      intro c t h
      exact absurd h (by simp)
  | cons d l' ih =>
      intro c t h
      by_cases hd : p d
      · rw [List.dropWhile_cons, if_pos hd] at h
        exact ih h
      · rw [List.dropWhile_cons, if_neg hd] at h
        cases h
        simpa using hd

/-- `strip` around an embedded brace-delimited segment: the prefix is
left-stripped, the suffix right-stripped, the segment untouched. -/
theorem stripChars_embed (a m b : List Char) :
    stripChars (a ++ ('\x7b' :: m ++ ['\x7d']) ++ b) =
      a.dropWhile Char.isWhitespace ++ ('\x7b' :: m ++ ['\x7d']) ++
        (b.reverse.dropWhile Char.isWhitespace).reverse := by
  unfold stripChars
  have h1 : a ++ ('\x7b' :: m ++ ['\x7d']) ++ b =
      a ++ '\x7b' :: (m ++ '\x7d' :: b) := by simp
  rw [h1, dropWhile_append_cons (by decide)]
  simp only [List.reverse_append, List.reverse_cons, List.append_assoc,
    List.cons_append, List.nil_append, List.append_nil]
  rw [dropWhile_append_cons (by decide)]
  simp

/-- The brace scan passes over brace-free text unchanged. -/
theorem scanBalanced_pass : ∀ a : List Char,
    (∀ c ∈ a, c ≠ '\x7b' ∧ c ≠ '\x7d') →
    ∀ (d : Nat) (t : List Char),
      scanBalanced d (a ++ t) = (scanBalanced d t).map (a ++ ·) := by
  intro a
  induction a with
  | nil =>
      intro _ d t
      rw [List.nil_append]
      cases scanBalanced d t <;> simp
  | cons c cs ih =>
      intro ha d t
      obtain ⟨hc1, hc2⟩ := ha c (by simp)
      rw [List.cons_append]
      conv_lhs => unfold scanBalanced
      rw [if_neg hc1, if_neg hc2]
      rw [ih (fun x hx => ha x (by simp [hx])) d t]
      cases scanBalanced d t <;> simp

/-- The brace scan at positive depth passes over a serialized member
list, element list and value (mutual statement for the lists). -/
theorem scanMembers_pass : ∀ kvs : List (String × PyVal),
    (∀ p ∈ kvs, Safe p.2 = true → ∀ d t,
      scanBalanced (d + 1) (dumpChars p.2 ++ t) =
        (scanBalanced (d + 1) t).map (dumpChars p.2 ++ ·)) →
    SafeDict kvs = true →
    ∀ (d : Nat) (t : List Char),
      (scanBalanced (d + 1) (dumpMembersChars kvs ++ t) =
        (scanBalanced (d + 1) t).map (dumpMembersChars kvs ++ ·)) ∧
      (scanBalanced (d + 1) (dumpMembersRest kvs ++ t) =
        (scanBalanced (d + 1) t).map (dumpMembersRest kvs ++ ·)) := by
  intro kvs
  induction kvs with
  | nil =>
      intro _ _ d t
      constructor
      · rw [show dumpMembersChars ([] : List (String × PyVal)) = [] from by
          unfold dumpMembersChars
          rfl]
        rw [List.nil_append]
        cases scanBalanced (d + 1) t <;> simp
      · rw [show dumpMembersRest ([] : List (String × PyVal)) = [] from by
          unfold dumpMembersRest
          rfl]
        rw [List.nil_append]
        cases scanBalanced (d + 1) t <;> simp
  | cons q qs ih =>
      intro ihm hs d t
      obtain ⟨k, v⟩ := q
      obtain ⟨hkk, hsv, -, hsqs⟩ := safeDict_cons hs
      have ihv : ∀ d t, scanBalanced (d + 1) (dumpChars v ++ t) =
          (scanBalanced (d + 1) t).map (dumpChars v ++ ·) :=
        ihm (k, v) (by simp) hsv
      have ihrest := ih (fun w hw => ihm w (by simp [hw])) hsqs
      have hkfree : ∀ c ∈ '"' :: k.data ++ ['"', ':'],
          c ≠ '\x7b' ∧ c ≠ '\x7d' := by
        intro c hc
        rcases List.mem_cons.mp hc with rfl | hc
        · exact ⟨by decide, by decide⟩
        rcases List.mem_append.mp hc with hc | hc
        · have := goodChar_extra (safeStr_good hkk c hc)
          exact ⟨this.2.2.1, this.2.2.2⟩
        · have hlit : ∀ x ∈ (['"', ':'] : List Char),
              x ≠ '\x7b' ∧ x ≠ '\x7d' := by decide
          exact hlit c hc
      constructor
      · have hshape : dumpMembersChars ((k, v) :: qs) =
            ('"' :: k.data ++ ['"', ':']) ++
              (dumpChars v ++ dumpMembersRest qs) := by
          conv_lhs => unfold dumpMembersChars
          simp
        rw [hshape]
        rw [List.append_assoc,
          scanBalanced_pass _ hkfree (d + 1)
            ((dumpChars v ++ dumpMembersRest qs) ++ t)]
        rw [List.append_assoc,
          ihv d (dumpMembersRest qs ++ t), (ihrest d t).2]
        cases scanBalanced (d + 1) t <;> simp
      · have hshape : dumpMembersRest ((k, v) :: qs) =
            (',' :: '"' :: k.data ++ ['"', ':']) ++
              (dumpChars v ++ dumpMembersRest qs) := by
          conv_lhs => unfold dumpMembersRest
          simp
        have hkfree2 : ∀ c ∈ ',' :: '"' :: k.data ++ ['"', ':'],
            c ≠ '\x7b' ∧ c ≠ '\x7d' := by
          intro c hc
          rcases List.mem_cons.mp hc with rfl | hc
          · exact ⟨by decide, by decide⟩
          · exact hkfree c hc
        rw [hshape]
        rw [List.append_assoc,
          scanBalanced_pass _ hkfree2 (d + 1)
            ((dumpChars v ++ dumpMembersRest qs) ++ t)]
        rw [List.append_assoc,
          ihv d (dumpMembersRest qs ++ t), (ihrest d t).2]
        cases scanBalanced (d + 1) t <;> simp

/-- See `scanMembers_pass`: the element lists. -/
theorem scanElems_pass : ∀ xs : List PyVal,
    (∀ x ∈ xs, Safe x = true → ∀ d t,
      scanBalanced (d + 1) (dumpChars x ++ t) =
        (scanBalanced (d + 1) t).map (dumpChars x ++ ·)) →
    SafeList xs = true →
    ∀ (d : Nat) (t : List Char),
      (scanBalanced (d + 1) (dumpElemsChars xs ++ t) =
        (scanBalanced (d + 1) t).map (dumpElemsChars xs ++ ·)) ∧
      (scanBalanced (d + 1) (dumpElemsRest xs ++ t) =
        (scanBalanced (d + 1) t).map (dumpElemsRest xs ++ ·)) := by
  intro xs
  induction xs with
  | nil =>
      intro _ _ d t
      constructor
      · rw [show dumpElemsChars ([] : List PyVal) = [] from by
          unfold dumpElemsChars
          rfl]
        rw [List.nil_append]
        cases scanBalanced (d + 1) t <;> simp
      · rw [show dumpElemsRest ([] : List PyVal) = [] from by
          unfold dumpElemsRest
          rfl]
        rw [List.nil_append]
        cases scanBalanced (d + 1) t <;> simp
  | cons x xs' ih =>
      intro ihm hs d t
      obtain ⟨hsx, hsxs⟩ := safeList_cons hs
      have ihx : ∀ d t, scanBalanced (d + 1) (dumpChars x ++ t) =
          (scanBalanced (d + 1) t).map (dumpChars x ++ ·) :=
        ihm x (by simp) hsx
      have ihrest := ih (fun w hw => ihm w (by simp [hw])) hsxs
      constructor
      · rw [show dumpElemsChars (x :: xs') =
            dumpChars x ++ dumpElemsRest xs' from by
          conv_lhs => unfold dumpElemsChars]
        rw [List.append_assoc, ihx d (dumpElemsRest xs' ++ t),
          (ihrest d t).2]
        cases scanBalanced (d + 1) t <;> simp
      · rw [show dumpElemsRest (x :: xs') =
            [','] ++ (dumpChars x ++ dumpElemsRest xs') from by
          conv_lhs => unfold dumpElemsRest
          simp]
        rw [List.append_assoc,
          scanBalanced_pass [','] (by decide) (d + 1)
            ((dumpChars x ++ dumpElemsRest xs') ++ t)]
        rw [List.append_assoc, ihx d (dumpElemsRest xs' ++ t),
          (ihrest d t).2]
        cases scanBalanced (d + 1) t <;> simp

/-- The brace scan at positive depth passes over any safe serialized
value. -/
theorem scan_dump : ∀ v, Safe v = true → ∀ (d : Nat) (t : List Char),
    scanBalanced (d + 1) (dumpChars v ++ t) =
      (scanBalanced (d + 1) t).map (dumpChars v ++ ·) := by
  refine PyVal.inductionOn ?_ ?_ ?_ ?_ ?_ ?_ ?_
  · intro _ d t
    rw [show dumpChars PyVal.none = nullChars from by
      unfold dumpChars nullChars
      rfl]
    exact scanBalanced_pass _ (by decide) _ t
  · intro b _ d t
    cases b
    · rw [show dumpChars (.bool false) = falseChars from by
        unfold dumpChars falseChars
        rfl]
      exact scanBalanced_pass _ (by decide) _ t
    · rw [show dumpChars (.bool true) = trueChars from by
        unfold dumpChars trueChars
        rfl]
      exact scanBalanced_pass _ (by decide) _ t
  · intro n _ d t
    rw [dump_int_eq]
    refine scanBalanced_pass _ ?_ _ t
    intro c hc
    unfold intChars at hc
    have hdig : ∀ c ∈ natChars n.natAbs, c ≠ '\x7b' ∧ c ≠ '\x7d' :=
      fun c hc =>
        ⟨(isDigit_ne (natChars_all_digit _ c hc)).2.2.1,
          (isDigit_facts (natChars_all_digit _ c hc)).2.2.2.2.1⟩
    split at hc
    · rcases List.mem_cons.mp hc with rfl | hc
      · exact ⟨by decide, by decide⟩
      · exact hdig c hc
    · exact hdig c hc
  · intro s hs
    exact absurd hs (by unfold Safe; simp)
  · intro s hs d t
    rw [Safe_str_eq] at hs
    rw [dump_str_eq]
    refine scanBalanced_pass _ ?_ _ t
    intro c hc
    rw [show ('"' :: s.data) ++ ['"'] = '"' :: (s.data ++ ['"'])
      from by simp] at hc
    rcases List.mem_cons.mp hc with rfl | hc
    · exact ⟨by decide, by decide⟩
    rcases List.mem_append.mp hc with hc | hc
    · have := goodChar_extra (safeStr_good hs c hc)
      exact ⟨this.2.2.1, this.2.2.2⟩
    · simp only [List.mem_singleton] at hc
      subst hc
      exact ⟨by decide, by decide⟩
  · intro xs ihm hs d t
    rw [Safe_list_eq] at hs
    rw [dump_list_eq]
    have hshape : ('[' :: dumpElemsChars xs ++ [']']) ++ t =
        ['['] ++ (dumpElemsChars xs ++ ([']'] ++ t)) := by simp
    rw [hshape]
    rw [scanBalanced_pass ['['] (by decide) (d + 1)
      (dumpElemsChars xs ++ ([']'] ++ t))]
    rw [(scanElems_pass xs ihm hs d ([']'] ++ t)).1]
    rw [scanBalanced_pass [']'] (by decide) (d + 1) t]
    cases scanBalanced (d + 1) t <;> simp
  · intro kvs ihm hs d t
    rw [Safe_dict_eq] at hs
    rw [dump_dict_eq]
    have hshape : ('\x7b' :: dumpMembersChars kvs ++ ['\x7d']) ++ t =
        '\x7b' :: (dumpMembersChars kvs ++ ('\x7d' :: t)) := by simp
    rw [hshape]
    conv_lhs => unfold scanBalanced
    first
      | simp only [if_true]
      | rw [if_pos rfl]
    rw [(scanMembers_pass kvs ihm hs (d + 1) ('\x7d' :: t)).1]
    conv_lhs =>
      rw [show scanBalanced (d + 1 + 1) ('\x7d' :: t) =
          if d + 1 + 1 = 1 then some ['\x7d']
          else (scanBalanced (d + 1 + 1 - 1) t).map ('\x7d' :: ·) from by
        conv_lhs => unfold scanBalanced
        rw [if_neg (by decide), if_pos rfl]]
    rw [if_neg (by omega)]
    have hd1 : d + 1 + 1 - 1 = d + 1 := by omega
    rw [hd1]
    cases scanBalanced (d + 1) t <;> simp

/-- The scan from depth 0 returns exactly the serialized object. -/
theorem scanBalanced_top (kvs : List (String × PyVal))
    (hs : Safe (.dict kvs) = true) (t : List Char) :
    scanBalanced 0 (dumpChars (.dict kvs) ++ t) =
      some (dumpChars (.dict kvs)) := by
  have hsd : SafeDict kvs = true := by
    rw [Safe_dict_eq] at hs
    exact hs
  have ihm : ∀ p ∈ kvs, Safe p.2 = true → ∀ d t,
      scanBalanced (d + 1) (dumpChars p.2 ++ t) =
        (scanBalanced (d + 1) t).map (dumpChars p.2 ++ ·) :=
    fun p _ hp => scan_dump p.2 hp
  rw [dump_dict_eq]
  have hshape : ('\x7b' :: dumpMembersChars kvs ++ ['\x7d']) ++ t =
      '\x7b' :: (dumpMembersChars kvs ++ ('\x7d' :: t)) := by simp
  rw [hshape]
  conv_lhs => unfold scanBalanced
  first
    | simp only [if_true]
    | rw [if_pos rfl]
  rw [show (0 : Nat) + 1 = 1 from rfl]
  rw [(scanMembers_pass kvs ihm hsd 0 ('\x7d' :: t)).1]
  conv_lhs =>
    rw [show scanBalanced 1 ('\x7d' :: t) = some ['\x7d'] from by
      conv_lhs => unfold scanBalanced
      rw [if_neg (by decide), if_pos rfl, if_pos rfl]]
  simp

/-! ### Claim C7, part 5 — the three extraction stages on an embedded
serialization -/

theorem removeFenceJson_nil : removeFenceJson [] = [] := by
  unfold removeFenceJson
  rfl

theorem removeFence_nil : removeFence [] = [] := by
  unfold removeFence
  rfl

theorem removeLineComments_nil : removeLineComments false [] = [] := by
  unfold removeLineComments
  rfl

theorem removeBlockComments_nil : removeBlockComments [] = [] := by
  unfold removeBlockComments
  rfl

theorem isJsonWs_eq (c : Char) : isJsonWs c = c.isWhitespace := by
  unfold isJsonWs Char.isWhitespace
  by_cases h1 : c = ' ' <;> by_cases h2 : c = '\t' <;>
    by_cases h3 : c = '\n' <;> by_cases h4 : c = '\r' <;>
    simp [h1, h2, h3, h4]

/-- Comment removal and final strip on a slash-free prefix and an
embedded serialized object. -/
theorem remove_json_comments_embed (p1s m q : List Char)
    (hp1a : ∀ c ∈ p1s, c ≠ '/')
    (hm : ∀ c ∈ '\x7b' :: m ++ ['\x7d'], c ≠ '/') :
    _remove_json_comments (p1s ++ ('\x7b' :: m ++ ['\x7d']) ++ q) =
      p1s.dropWhile Char.isWhitespace ++ ('\x7b' :: m ++ ['\x7d']) ++
        ((removeBlockComments (removeLineComments false q)).reverse.dropWhile
          Char.isWhitespace).reverse := by
  unfold _remove_json_comments
  have ha : ∀ c ∈ p1s ++ ('\x7b' :: m ++ ['\x7d']), c ≠ '/' := by
    intro c hc
    rcases List.mem_append.mp hc with hc | hc
    · exact hp1a c hc
    · exact hm c hc
  rw [removeLineComments_append _ ha q]
  rw [removeBlockComments_append _ ha _]
  rw [stripChars_embed p1s m (removeBlockComments (removeLineComments false q))]

/-- Stage 1 on an embedded serialization: the direct parse either
recovers the object (whitespace-only residue) or fails — it never
produces a different value. -/
theorem try_candidate_embed (kvs : List (String × PyVal)) (p1s q : List Char)
    (hs : Safe (.dict kvs) = true)
    (hp1s : ∀ c ∈ p1s, c ≠ '\x7b' ∧ c ≠ '[' ∧ c ≠ '"' ∧ c ≠ '/' ∧
      c ≠ '-' ∧ c.isDigit = false)
    (hp1ws : p1s.dropWhile Char.isWhitespace = p1s)
    (hqws : (q.reverse.dropWhile Char.isWhitespace).reverse = q) :
    _try_parse_json_candidate (p1s ++ dumpChars (.dict kvs) ++ q) =
        some (.dict kvs) ∨
      _try_parse_json_candidate (p1s ++ dumpChars (.dict kvs) ++ q) =
        Option.none := by
  unfold _try_parse_json_candidate
  rw [dump_dict_eq]
  rw [stripChars_embed p1s (dumpMembersChars kvs) q, hp1ws, hqws]
  rw [if_neg (by simp)]
  have hslash1 : ∀ c ∈ p1s, c ≠ '/' := fun c hc => (hp1s c hc).2.2.2.1
  have hslashd : ∀ c ∈ '\x7b' :: dumpMembersChars kvs ++ ['\x7d'],
      c ≠ '/' := by
    rw [← dump_dict_eq]
    exact fun c hc => (dump_plain _ hs c hc).1
  rw [remove_json_comments_embed p1s _ q hslash1 hslashd, hp1ws]
  cases hps : p1s with
  | nil =>
      rw [List.nil_append, ← dump_dict_eq]
      rw [jsonLoads_dump_append kvs hs _]
      by_cases hq2 : (skipWs
          (((removeBlockComments (removeLineComments false q)).reverse.dropWhile
            Char.isWhitespace).reverse)).isEmpty = true
      · left
        rw [if_pos hq2]
      · right
        rw [if_neg hq2]
  | cons c0 t =>
      right
      have hfacts := hp1s c0 (by rw [hps]; simp)
      have hwsc0 : Char.isWhitespace c0 = false := by
        have := hp1ws
        rw [hps] at this
        exact dropWhile_head_false this
      have hjws : isJsonWs c0 = false := by
        rw [isJsonWs_eq]
        exact hwsc0
      rw [List.append_assoc]
      exact jsonLoads_junk t _ hjws hfacts.1 hfacts.2.1 hfacts.2.2.1
        hfacts.2.2.2.2.2 hfacts.2.2.2.2.1
        (by simp)

/-- Stage 2 on an embedded serialization: the balanced-brace snippet is
exactly the serialized object. -/
theorem balanced_embed (kvs : List (String × PyVal)) (p1s q : List Char)
    (hs : Safe (.dict kvs) = true)
    (hp1b : ∀ c ∈ p1s, c ≠ '\x7b') :
    _balanced_json_snippet (p1s ++ dumpChars (.dict kvs) ++ q) =
      some (dumpChars (.dict kvs)) := by
  unfold _balanced_json_snippet
  have hdw : (p1s ++ dumpChars (.dict kvs) ++ q).dropWhile
      (fun c => c ≠ '\x7b') = dumpChars (.dict kvs) ++ q := by
    rw [List.append_assoc]
    rw [(takeWhile_append_all p1s (dumpChars (.dict kvs) ++ q)
      (fun c hc => by simp [hp1b c hc])).2]
    rw [show dumpChars (.dict kvs) ++ q =
        '\x7b' :: (dumpMembersChars kvs ++ '\x7d' :: q) from by
      rw [dump_dict_eq]
      simp]
    rw [List.dropWhile_cons]
    simp
  rw [hdw]
  rw [show dumpChars (.dict kvs) ++ q =
      '\x7b' :: (dumpMembersChars kvs ++ '\x7d' :: q) from by
    rw [dump_dict_eq]
    simp]
  simp only []
  rw [show '\x7b' :: (dumpMembersChars kvs ++ '\x7d' :: q) =
      dumpChars (.dict kvs) ++ q from by
    rw [dump_dict_eq]
    simp]
  exact scanBalanced_top kvs hs q

/-- Stage 2's candidate — the exact serialization — parses back to the
object. -/
theorem try_candidate_dump (kvs : List (String × PyVal))
    (hs : Safe (.dict kvs) = true) :
    _try_parse_json_candidate (dumpChars (.dict kvs)) = some (.dict kvs) := by
  unfold _try_parse_json_candidate
  rw [show dumpChars (.dict kvs) =
      [] ++ dumpChars (.dict kvs) ++ [] from by simp]
  rw [dump_dict_eq]
  rw [stripChars_embed [] (dumpMembersChars kvs) []]
  simp only [List.dropWhile_nil, List.reverse_nil, List.nil_append,
    List.append_nil]
  rw [if_neg (by simp)]
  have hslashd : ∀ c ∈ '\x7b' :: dumpMembersChars kvs ++ ['\x7d'],
      c ≠ '/' := by
    rw [← dump_dict_eq]
    exact fun c hc => (dump_plain _ hs c hc).1
  rw [show ('\x7b' :: dumpMembersChars kvs ++ ['\x7d']) =
      [] ++ ('\x7b' :: dumpMembersChars kvs ++ ['\x7d']) ++ [] from by simp]
  rw [remove_json_comments_embed [] _ [] (by simp) hslashd]
  rw [removeLineComments_nil, removeBlockComments_nil]
  simp only [List.dropWhile_nil, List.reverse_nil, List.nil_append,
    List.append_nil]
  rw [← dump_dict_eq]
  rw [show dumpChars (.dict kvs) = dumpChars (.dict kvs) ++ [] from by simp]
  rw [jsonLoads_dump_append kvs hs []]
  rw [if_pos (by rfl)]

theorem mem_of_mem_dropWhile {p : Char → Bool} :
    ∀ {l : List Char} {c : Char}, c ∈ l.dropWhile p → c ∈ l := by
  intro l
  induction l with
  | nil =>
      intro c hc
      simpa using hc
  | cons d t ih =>
      intro c hc
      by_cases hd : p d
      · rw [List.dropWhile_cons, if_pos hd] at hc
        exact List.mem_cons_of_mem _ (ih hc)
      · rw [List.dropWhile_cons, if_neg hd] at hc
        exact hc

/-- The full extractor on a serialized safe object embedded in prose:
the prefix avoids the characters that can open or corrupt a JSON
document, the suffix is arbitrary. -/
theorem extract_json_embed (kvs : List (String × PyVal)) (p1 p2 : List Char)
    (hs : Safe (.dict kvs) = true)
    (hp1 : ∀ c ∈ p1, c ≠ '\x7b' ∧ c ≠ '[' ∧ c ≠ '"' ∧ c ≠ '\x60' ∧
      c ≠ '/' ∧ c ≠ '-' ∧ c.isDigit = false) :
    _extract_json (p1 ++ dumpChars (.dict kvs) ++ p2) = some (.dict kvs) := by
  unfold _extract_json
  rw [if_neg (by
    rw [dump_dict_eq]
    simp [List.isEmpty_iff])]
  have hticks : ∀ c ∈ p1 ++ dumpChars (.dict kvs), c ≠ '\x60' := by
    intro c hc
    rcases List.mem_append.mp hc with hc | hc
    · exact (hp1 c hc).2.2.2.1
    · exact (dump_plain _ hs c hc).2
  rw [removeFenceJson_append _ hticks p2]
  rw [removeFence_append _ hticks _]
  rw [dump_dict_eq]
  rw [stripChars_embed p1 (dumpMembersChars kvs)
    (removeFence (removeFenceJson p2))]
  rw [← dump_dict_eq]
  set p1s := p1.dropWhile Char.isWhitespace with hp1sdef
  set qs := ((removeFence (removeFenceJson p2)).reverse.dropWhile
    Char.isWhitespace).reverse with hqsdef
  have hp1s7 : ∀ c ∈ p1s, c ≠ '\x7b' ∧ c ≠ '[' ∧ c ≠ '"' ∧ c ≠ '/' ∧
      c ≠ '-' ∧ c.isDigit = false := by
    intro c hc
    have h := hp1 c (mem_of_mem_dropWhile (by rw [← hp1sdef]; exact hc))
    exact ⟨h.1, h.2.1, h.2.2.1, h.2.2.2.2.1, h.2.2.2.2.2.1, h.2.2.2.2.2.2⟩
  have hp1ws : p1s.dropWhile Char.isWhitespace = p1s := by
    rw [hp1sdef]
    exact dropWhile_idem p1
  have hqws : (qs.reverse.dropWhile Char.isWhitespace).reverse = qs := by
    rw [hqsdef, List.reverse_reverse, dropWhile_idem]
  have hb := balanced_embed kvs p1s qs hs (fun c hc => (hp1s7 c hc).1)
  have ht := try_candidate_dump kvs hs
  simp only []
  rw [List.append_assoc] at hb
  rcases try_candidate_embed kvs p1s qs hs hp1s7 hp1ws hqws with h1 | h1 <;>
    rw [h1] <;> simp [Option.orElse, hb, ht]

/-- Claim C7 (corrected): the extractor round-trips a serialized JSON
object embedded in surrounding text for the class the code actually
supports — objects whose strings avoid the quote, backslash, braces,
slash, backtick and control characters, with unique keys and no floats
(`Safe`), and a leading-prose prefix free of characters that can open a
JSON value or corrupt the scan (brace, bracket, quote, backtick, slash,
minus, digits); the trailing text is arbitrary.  The original claim's
unconditional round-trip is false: `claim_C7_counterexample`. -/
theorem claim_C7 (kvs : List (String × PyVal)) (p1 p2 : List Char)
    (hs : Safe (.dict kvs) = true)
    (hp1 : ∀ c ∈ p1, c ≠ '\x7b' ∧ c ≠ '[' ∧ c ≠ '"' ∧ c ≠ '\x60' ∧
      c ≠ '/' ∧ c ≠ '-' ∧ c.isDigit = false) :
    _extract_json (p1 ++ dumpChars (.dict kvs) ++ p2) = some (.dict kvs) :=
  extract_json_embed kvs p1 p2 hs hp1

/-- Claim C7 counterexample: the object `\x7b"url": "http://x"\x7d` is
valid JSON — `json.loads` itself parses it back — yet `_extract_json`
returns nothing even for the trivial embedding (no prose at all),
because `//` inside the string is stripped as a line comment. -/
theorem claim_C7_counterexample :
    jsonLoads "\x7b\"url\": \"http://x\"\x7d".data =
        some (.dict [("url", .str "http://x")]) ∧
      _extract_json "\x7b\"url\": \"http://x\"\x7d".data = Option.none := by
  constructor
  · with_unfolding_all rfl
  · with_unfolding_all rfl

/-- Witness for `claim_C7` at a concrete recipe object embedded in
prose with a trailing fence. -/
theorem claim_C7_witness :
    _extract_json
      (['S', 'u', 'r', 'e', ':', ' ', '\n'] ++
        dumpChars (.dict [("title", .str "Rice bowl"),
          ("servings", .int 2)]) ++
        [' ', 'E', 'n', 'j', 'o', 'y', '!', ' ', '\x60', '\x60', '\x60']) =
      some (.dict [("title", .str "Rice bowl"), ("servings", .int 2)]) :=
  claim_C7 [("title", .str "Rice bowl"), ("servings", .int 2)]
    ['S', 'u', 'r', 'e', ':', ' ', '\n']
    [' ', 'E', 'n', 'j', 'o', 'y', '!', ' ', '\x60', '\x60', '\x60']
    (by with_unfolding_all rfl)
    (by decide)

/-! ## Claims C5 and C6 — the dietary inventory filter -/

/-- Soundness of the filter with respect to the names the CODE resolves:
every surviving item's `_get_name` result is outside the banned union. -/
theorem filter_inventory_sound :
    ∀ (inv : List PyVal) (dietary : List String) (out : List PyVal),
      _filter_inventory inv dietary = .ok out →
      ∀ item ∈ out, ∃ name, _get_name item = .ok name ∧
        name ∉ bannedNames dietary := by
  intro inv dietary
  induction inv with
  | nil =>
      intro out h item hitem
      unfold _filter_inventory at h
      cases h
      simp at hitem
  | cons x rest ih =>
      intro out h item hitem
      unfold _filter_inventory at h
      cases hg : _get_name x with
      | error e =>
          rw [hg] at h
          exact absurd h (by simp)
      | ok name =>
          rw [hg] at h
          cases hrec : _filter_inventory rest dietary with
          | error e =>
              rw [hrec] at h
              exact absurd h (by simp)
          | ok tail =>
              rw [hrec] at h
              cases h
              by_cases hb : name ∈ bannedNames dietary
              · rw [if_pos hb] at hitem
                exact ih tail hrec item hitem
              · rw [if_neg hb] at hitem
                rcases List.mem_cons.mp hitem with rfl | hitem
                · exact ⟨name, hg, hb⟩
                · exact ih tail hrec item hitem

/-- C5, counterexample: the claim resolves a PLAIN-STRING item by
lowercasing it, but `_get_name` returns a plain string unchanged — so
`"Chicken"` survives a vegetarian filter although its lowercased form is
banned. -/
theorem claim_C5_counterexample :
    _filter_inventory [.str "Chicken"] ["vegetarian"] =
        .ok [.str "Chicken"] ∧
      pyLower "Chicken" ∈ bannedNames ["vegetarian"] ∧
      _get_name (.str "Chicken") = .ok "Chicken" := by
  refine ⟨by with_unfolding_all rfl, ?_, by with_unfolding_all rfl⟩
  rw [show pyLower "Chicken" = "chicken" from by with_unfolding_all rfl]
  rw [show bannedNames ["vegetarian"] =
    ["beef", "pork", "chicken", "turkey", "fish", "shrimp", "lamb",
     "bacon"] from by with_unfolding_all rfl]
  simp

/-- C5 (amended): for every inventory and dietary tag list, no item of
the filter's output has a CODE-resolved name — `_get_name`: the `name`
field stringified and lowercased for a dict item, the string itself
AS-IS (not lowercased) for a plain string — inside the banned union. -/
theorem claim_C5 :
    ∀ (inv : List PyVal) (dietary : List String) (out : List PyVal),
      _filter_inventory inv dietary = .ok out →
      ∀ item ∈ out, ∃ name, _get_name item = .ok name ∧
        name ∉ bannedNames dietary :=
  filter_inventory_sound

/-- C5, witness: `"rice"` survives the vegetarian filter and its resolved
name is indeed outside the banned union. -/
theorem claim_C5_witness :
    ∃ name, _get_name (.str "rice") = .ok name ∧
      name ∉ bannedNames ["vegetarian"] :=
  claim_C5 [.str "rice"] ["vegetarian"] [.str "rice"]
    (by with_unfolding_all rfl) (.str "rice") (by simp)

/-- C6, counterexample: the spec spells the tag `gluten-free` (hyphen),
but the code's `RESTRICTED` key is `"gluten free"` (space) and tags are
only lowercased, never de-hyphenated — with the spec's spelling the
lookup misses and `wheat` survives. -/
theorem claim_C6_counterexample :
    _filter_inventory [.str "wheat"] ["gluten-free"] = .ok [.str "wheat"] ∧
      restrictedGet "gluten-free" = [] ∧
      "wheat" ∈ restrictedGet "gluten free" := by
  refine ⟨by with_unfolding_all rfl, by with_unfolding_all rfl, ?_⟩
  rw [show restrictedGet "gluten free" =
    ["wheat", "barley", "rye", "bread", "pasta", "flour",
     "spaghetti", "noodles", "bulgur", "couscous", "semolina"] from by
    with_unfolding_all rfl]
  simp

/-- C6 (amended): whenever the tag spelled `"gluten free"` (with a
space, as in the code's table) is present among the dietary tags, the
filter removes every item whose code-resolved name is in the gluten
banned-ingredient set — no surviving item resolves to a gluten-banned
name. -/
theorem claim_C6 :
    ∀ (inv : List PyVal) (dietary : List String) (out : List PyVal),
      "gluten free" ∈ dietary →
      _filter_inventory inv dietary = .ok out →
      ∀ item ∈ out, ∃ name, _get_name item = .ok name ∧
        name ∉ ["wheat", "barley", "rye", "bread", "pasta", "flour",
          "spaghetti", "noodles", "bulgur", "couscous", "semolina"] := by
  intro inv dietary out htag h item hitem
  obtain ⟨name, hg, hnb⟩ :=
    filter_inventory_sound inv dietary out h item hitem
  refine ⟨name, hg, fun hcontra => hnb ?_⟩
  unfold bannedNames
  rw [List.mem_flatMap]
  refine ⟨"gluten free", htag, ?_⟩
  rw [show pyLower "gluten free" = "gluten free" from by
    with_unfolding_all rfl]
  rw [show restrictedGet "gluten free" =
    ["wheat", "barley", "rye", "bread", "pasta", "flour",
     "spaghetti", "noodles", "bulgur", "couscous", "semolina"] from by
    with_unfolding_all rfl]
  exact hcontra

/-- C6, witness: with the tags `["vegan", "gluten free"]`, `wheat` is
removed and `rice` survives with a non-gluten-banned resolved name. -/
theorem claim_C6_witness :
    ∃ name, _get_name (.str "rice") = .ok name ∧
      name ∉ ["wheat", "barley", "rye", "bread", "pasta", "flour",
        "spaghetti", "noodles", "bulgur", "couscous", "semolina"] :=
  claim_C6 [.str "wheat", .str "rice"] ["vegan", "gluten free"]
    [.str "rice"] (by simp) (by with_unfolding_all rfl)
    (.str "rice") (by simp)

/-! ## Claim C8 — empty filtered inventory short-circuits -/

/-- C8 (confirmed): if the filter empties the inventory, the function
immediately returns `{error: "No safe ingredients available.",
recipes: []}` with zero completion calls and an empty call trace. -/
theorem claim_C8 :
    ∀ (client : Client) (normUnits : List PyVal → Int → List PyVal)
      (uid : Int) (inv : List PyVal) (prefs : UserPrefs) (n : Nat),
    _filter_inventory inv (prefs.dietary.map (fun d => pyLower (pyStrip d)))
      = .ok [] →
    suggest_recipes_from_groq client normUnits uid inv prefs n =
      (.ok ⟨some "No safe ingredients available.", Option.none, []⟩,
       ⟨0, [], ""⟩) := by
  intro client nu uid inv prefs n h
  simp only [suggest_recipes_from_groq]
  rw [h]
  simp

/-- C8, witness: `["Chicken's lowercase"]`-free concrete case — a
vegetarian filter empties `["chicken"]`, so no model call is made. -/
theorem claim_C8_witness :
    suggest_recipes_from_groq (fun _ => .ok "x") (fun l _ => l) 7
      [PyVal.str "chicken"] ⟨["vegetarian"], []⟩ 3 =
      (.ok ⟨some "No safe ingredients available.", Option.none, []⟩,
       ⟨0, [], ""⟩) :=
  claim_C8 (fun _ => .ok "x") (fun l _ => l) 7 [PyVal.str "chicken"]
    ⟨["vegetarian"], []⟩ 3 (by with_unfolding_all rfl)

/-! ## Claim C10 — global call budget and per-attempt call blocks -/

/-- The state after one attempt body: one primary call was appended, and
either that was all, or — with evidence that the primary answer failed
extraction — exactly one repair call followed. -/
theorem attemptOnce_state (client : Client)
    (nu : List PyVal → Int → List PyVal) (uid : Int) (n : Nat)
    (st : LoopState) (attempt : Nat) :
    (attemptOnce client nu uid n st attempt).2 =
        { st with calls := st.calls + 1,
                  trace := st.trace ++ [(attempt, .primary)] } ∨
      ∃ s, client st.calls = .ok s ∧ _extract_json s.data = Option.none ∧
        (attemptOnce client nu uid n st attempt).2 =
          { st with calls := st.calls + 2,
                    trace := st.trace ++ [(attempt, .primary),
                      (attempt, .repair)] } := by
  rcases hc : client st.calls with e | s
  · left
    simp [attemptOnce, hc]
  · rcases he : _extract_json s.data with _ | p
    · right
      refine ⟨s, rfl, he, ?_⟩
      rcases hc2 : client (st.calls + 1) with e2 | s2
      · simp [attemptOnce, _repair_json_via_groq, hc, he, hc2]
      · rcases h2 : _extract_json s2.data with _ | p2
        · simp [attemptOnce, _repair_json_via_groq, hc, he, hc2, h2]
        · rcases hn : normalizeParsed p2 with e3 | l
          · simp [attemptOnce, _repair_json_via_groq, hc, he, hc2, h2, hn]
          · by_cases hl : l.isEmpty = true <;>
              simp [attemptOnce, _repair_json_via_groq, hc, he, hc2, h2,
                hn, hl]
    · left
      rcases hn : normalizeParsed p with e3 | l
      · simp [attemptOnce, hc, he, hn]
      · by_cases hl : l.isEmpty = true <;>
          simp [attemptOnce, hc, he, hn, hl]

/-- The loop appends a block-decomposable trace segment of at most two
calls per remaining iteration. -/
theorem attemptLoop_blocks {client : Client}
    {nu : List PyVal → Int → List PyVal} {uid : Int} {n : Nat} :
    ∀ (fuel attempt : Nat) (st : LoopState),
      ∃ d, (attemptLoop client nu uid n fuel attempt st).2.trace
            = st.trace ++ d ∧
        (attemptLoop client nu uid n fuel attempt st).2.calls
            = st.calls + d.length ∧
        d.length ≤ 2 * fuel ∧
        AttemptBlocks client attempt st.calls d := by
  intro fuel
  induction fuel with
  | zero =>
      intro attempt st
      exact ⟨[], by simp [attemptLoop], by simp [attemptLoop], by simp,
        .nil attempt st.calls⟩
  | succ k ih =>
      intro attempt st
      have hstep := attemptLoop_succ client nu uid n k attempt st
      rcases hx : attemptOnce client nu uid n st attempt with ⟨oc, st2⟩
      have hst := attemptOnce_state client nu uid n st attempt
      rw [hx] at hstep hst
      simp only [] at hst
      rcases oc with r | err | e
      · simp only [] at hstep
        rcases hst with h1 | ⟨s, hcs, hes, h1⟩
        · exact ⟨[(attempt, .primary)], by simp [hstep, h1],
            by simp [hstep, h1],
            by simp only [List.length_cons, List.length_nil]; omega,
            .primaryOnly attempt st.calls []
              (.nil (attempt + 1) (st.calls + 1))⟩
        · exact ⟨[(attempt, .primary), (attempt, .repair)],
            by simp [hstep, h1], by simp [hstep, h1],
            by simp only [List.length_cons, List.length_nil]; omega,
            .withRepair attempt st.calls [] s hcs hes
              (.nil (attempt + 1) (st.calls + 2))⟩
      · -- failure: retry or final bare return; trace and calls are those
        -- of the attempt state either way
        simp only [] at hstep
        by_cases hlt : attempt < MAX_ATTEMPTS
        · rw [if_pos hlt] at hstep
          obtain ⟨d2, ht2, hc2, hl2, hb2⟩ :=
            ih (attempt + 1) { st2 with last_error := err }
          rcases hst with h1 | ⟨s, hcs, hes, h1⟩
          · refine ⟨(attempt, .primary) :: d2, ?_, ?_,
              by simp only [List.length_cons]; omega, ?_⟩
            · rw [hstep, ht2]
              simp [h1]
            · rw [hstep, hc2]
              simp only [h1, List.length_cons]
              omega
            · refine .primaryOnly attempt st.calls d2 ?_
              have hcalls : ({ st2 with last_error := err } : LoopState).calls
                  = st.calls + 1 := by simp [h1]
              rw [← hcalls]
              exact hb2
          · refine ⟨(attempt, .primary) :: (attempt, .repair) :: d2,
              ?_, ?_, by simp only [List.length_cons]; omega, ?_⟩
            · rw [hstep, ht2]
              simp [h1]
            · rw [hstep, hc2]
              simp only [h1, List.length_cons]
              omega
            · refine .withRepair attempt st.calls d2 s hcs hes ?_
              have hcalls : ({ st2 with last_error := err } : LoopState).calls
                  = st.calls + 2 := by simp [h1]
              rw [← hcalls]
              exact hb2
        · rw [if_neg hlt] at hstep
          rcases hst with h1 | ⟨s, hcs, hes, h1⟩
          · exact ⟨[(attempt, .primary)], by simp [hstep, h1],
              by simp [hstep, h1],
              by simp only [List.length_cons, List.length_nil]; omega,
              .primaryOnly attempt st.calls []
                (.nil (attempt + 1) (st.calls + 1))⟩
          · exact ⟨[(attempt, .primary), (attempt, .repair)],
              by simp [hstep, h1], by simp [hstep, h1],
              by simp only [List.length_cons, List.length_nil]; omega,
              .withRepair attempt st.calls [] s hcs hes
                (.nil (attempt + 1) (st.calls + 2))⟩
      · simp only [] at hstep
        rcases hst with h1 | ⟨s, hcs, hes, h1⟩
        · exact ⟨[(attempt, .primary)], by simp [hstep, h1],
            by simp [hstep, h1],
            by simp only [List.length_cons, List.length_nil]; omega,
            .primaryOnly attempt st.calls []
              (.nil (attempt + 1) (st.calls + 1))⟩
        · exact ⟨[(attempt, .primary), (attempt, .repair)],
            by simp [hstep, h1], by simp [hstep, h1],
            by simp only [List.length_cons, List.length_nil]; omega,
            .withRepair attempt st.calls [] s hcs hes
              (.nil (attempt + 1) (st.calls + 2))⟩

/-- C10 (confirmed): on every invocation the completion service is
called at most `2 * MAX_ATTEMPTS = 8` times; the call count equals the
trace length, and the trace decomposes into per-attempt blocks starting
at attempt 1 and call 0 — one primary call, optionally followed by one
repair call issued only when that attempt's primary answer failed
extraction (`AttemptBlocks`). -/
theorem claim_C10 :
    ∀ (client : Client) (normUnits : List PyVal → Int → List PyVal)
      (uid : Int) (inv : List PyVal) (prefs : UserPrefs) (n : Nat),
      (suggest_recipes_from_groq client normUnits uid inv prefs n).2.calls
          ≤ 2 * MAX_ATTEMPTS ∧
      (suggest_recipes_from_groq client normUnits uid inv prefs n).2.trace.length
          = (suggest_recipes_from_groq client normUnits uid inv prefs n).2.calls ∧
      AttemptBlocks client 1 0
        (suggest_recipes_from_groq client normUnits uid inv prefs n).2.trace := by
  intro client nu uid inv prefs n
  simp only [suggest_recipes_from_groq]
  rcases hf : _filter_inventory inv
      (prefs.dietary.map (fun d => pyLower (pyStrip d))) with e | safe
  · exact ⟨by simp [MAX_ATTEMPTS], rfl, .nil 1 0⟩
  · simp only []
    by_cases hs : safe.isEmpty = true
    · rw [if_pos hs]
      exact ⟨by simp [MAX_ATTEMPTS], rfl, .nil 1 0⟩
    · rw [if_neg hs]
      obtain ⟨d, ht, hc, hl, hb⟩ :=
        @attemptLoop_blocks client nu uid n MAX_ATTEMPTS 1 ⟨0, [], ""⟩
      refine ⟨?_, ?_, ?_⟩
      · rw [hc]
        simpa using hl
      · rw [ht, hc]
        simp
      · have h0 : (⟨0, [], ""⟩ : LoopState).trace ++ d = d := by simp
        rw [ht, h0]
        exact hb

end SmartCook
